import Mathlib

/-!
Verification of the LIGO Light Weight XML array codec
(`glue/ligolw/array.py`): shape resolution, the odometer index
iterator, the incremental parse path, the formatted write path, and
the array-name convention.

Text is modelled as `List Char`.  The external collaborators that the
module imports (`tokenizer`, `types`, `ligolw`) are not part of the
examined sources, so the tokenizer's delimiter splitting and scalar
casting, the indentation constant, and the type tables are modelled
from the specification, as noted on each definition.
-/

namespace GlueArray

/-! ## Character classes and whitespace stripping -/

/-- Modelled from the spec: the tokenizer's scalar cast strips the
whitespace that the writer inserts cosmetically around values; this is
the whitespace class used by Python string stripping. -/
def isWS (c : Char) : Bool :=
  c.toNat = 32 || c.toNat = 9 || c.toNat = 10 || c.toNat = 13 ||
    c.toNat = 11 || c.toNat = 12

/-- Decimal digit characters. -/
def isDigitC (c : Char) : Bool :=
  48 ≤ c.toNat && c.toNat ≤ 57

/-- Remove leading and trailing whitespace. -/
def stripWS (cs : List Char) : List Char :=
  ((cs.dropWhile isWS).reverse.dropWhile isWS).reverse

theorem isDigitC_not_isWS {c : Char} (h : isDigitC c = true) : isWS c = false := by
  simp only [isDigitC, Bool.and_eq_true, decide_eq_true_eq] at h
  simp only [isWS, Bool.or_eq_false_iff, decide_eq_false_iff_not]
  omega

theorem dropWhile_eq_nil_of_all {p : Char → Bool} {cs : List Char}
    (h : ∀ c ∈ cs, p c = true) : cs.dropWhile p = [] := by
  induction cs with
  | nil => rfl
  | cons c cs ih =>
      rw [List.dropWhile_cons, if_pos (h c (List.mem_cons_self _ _))]
      exact ih fun x hx => h x (List.mem_cons_of_mem _ hx)

theorem dropWhile_eq_self_of_all_false {p : Char → Bool} {cs : List Char}
    (h : ∀ c ∈ cs, p c = false) : cs.dropWhile p = cs := by
  cases cs with
  | nil => rfl
  | cons c cs =>
      rw [List.dropWhile_cons, if_neg (by simp [h c (List.mem_cons_self _ _)])]

theorem dropWhile_append_of_all {p : Char → Bool} {w cs : List Char}
    (h : ∀ c ∈ w, p c = true) :
    (w ++ cs).dropWhile p = cs.dropWhile p := by
  induction w with
  | nil => rfl
  | cons c w ih =>
      rw [List.cons_append, List.dropWhile_cons, if_pos (h c (List.mem_cons_self _ _))]
      exact ih fun x hx => h x (List.mem_cons_of_mem _ hx)

theorem dropWhile_append_of_ne_nil {p : Char → Bool} {l₁ l₂ : List Char}
    (h : l₁.dropWhile p ≠ []) :
    (l₁ ++ l₂).dropWhile p = l₁.dropWhile p ++ l₂ := by
  induction l₁ with
  | nil => exact absurd rfl h
  | cons c t ih =>
      rw [List.cons_append, List.dropWhile_cons, List.dropWhile_cons]
      by_cases hc : p c = true
      · rw [if_pos hc, if_pos hc]
        rw [List.dropWhile_cons, if_pos hc] at h
        exact ih h
      · rw [if_neg hc, if_neg hc, List.cons_append]

theorem stripWS_of_all_ws {cs : List Char} (h : ∀ c ∈ cs, isWS c = true) :
    stripWS cs = [] := by
  unfold stripWS
  rw [dropWhile_eq_nil_of_all h]
  rfl

theorem stripWS_ws_left {w cs : List Char} (h : ∀ c ∈ w, isWS c = true) :
    stripWS (w ++ cs) = stripWS cs := by
  unfold stripWS
  rw [dropWhile_append_of_all h]

theorem all_of_dropWhile_eq_nil {p : Char → Bool} {cs : List Char}
    (h : cs.dropWhile p = []) : ∀ c ∈ cs, p c = true := by
  induction cs with
  | nil => intro c hc; exact absurd hc (List.not_mem_nil c)
  | cons c t ih =>
      rw [List.dropWhile_cons] at h
      by_cases hc : p c = true
      · rw [if_pos hc] at h
        intro x hx
        rcases List.mem_cons.1 hx with hx | hx
        · rw [hx]; exact hc
        · exact ih h x hx
      · rw [if_neg hc] at h
        exact absurd h (List.cons_ne_nil c t)

theorem stripWS_ws_right {w cs : List Char} (h : ∀ c ∈ w, isWS c = true) :
    stripWS (cs ++ w) = stripWS cs := by
  unfold stripWS
  by_cases hnil : cs.dropWhile isWS = []
  · rw [hnil, List.reverse_nil,
      @dropWhile_eq_nil_of_all isWS (cs ++ w)
        (fun c hc => by
          rcases List.mem_append.1 hc with hcc | hcw
          · exact all_of_dropWhile_eq_nil hnil c hcc
          · exact h c hcw)]
    rfl
  · rw [dropWhile_append_of_ne_nil hnil, List.reverse_append,
      dropWhile_append_of_all (fun c hc => h c (List.mem_reverse.1 hc))]

theorem stripWS_of_no_ws {cs : List Char} (h : ∀ c ∈ cs, isWS c = false) :
    stripWS cs = cs := by
  unfold stripWS
  rw [dropWhile_eq_self_of_all_false h,
    dropWhile_eq_self_of_all_false (fun c hc => h c (List.mem_reverse.1 hc)),
    List.reverse_reverse]

/-! ## Decimal printing and the tokenizer's scalar cast

The writer serializes each scalar with Python `"%s" % value`
(decimal); the tokenizer casts each token text back with the scalar
constructor (`int`), which strips whitespace and parses an optional
sign followed by decimal digits. -/

/-- Little-endian decimal digits of `n`; the fuel argument makes the
recursion structural and is instantiated with `n` itself. -/
def natDigitsRev (fuel n : Nat) : List Nat :=
  match fuel with
  | 0 => []
  | f + 1 => if n = 0 then [] else (n % 10) :: natDigitsRev f (n / 10)

/-- The character for a decimal digit. -/
def digitChar (d : Nat) : Char := Char.ofNat (48 + d)

/-- The decimal digit of a character. -/
def charDigit (c : Char) : Nat := c.toNat - 48

/-- Decimal text of a natural number, as Python `str` renders it. -/
def natToChars (n : Nat) : List Char :=
  if n = 0 then [Char.ofNat 48] else ((natDigitsRev n n).map digitChar).reverse

/-- Decimal text of an integer, as Python `"%s" %` renders it. -/
def intToChars (v : Int) : List Char :=
  if v < 0 then Char.ofNat 45 :: natToChars v.natAbs else natToChars v.natAbs

/-- Modelled from the spec: the tokenizer's cast of a digit string to
a natural number (`int(...)` on an unsigned token). Fails on an empty
string or any non-digit character. -/
def castNat (cs : List Char) : Option Nat :=
  if cs.isEmpty || !cs.all isDigitC then none
  else some (cs.foldl (fun a c => 10 * a + charDigit c) 0)

/-- Modelled from the spec: the tokenizer's integer cast (`int(...)`)
applied to an already-stripped token text: an optional leading minus
sign followed by decimal digits. -/
def castInt (cs : List Char) : Option Int :=
  match cs with
  | [] => none
  | c :: rest =>
      if c = Char.ofNat 45 then (castNat rest).map (fun n => -(n : Int))
      else (castNat (c :: rest)).map (fun n => (n : Int))

/-- Value of little-endian digits. -/
def ofDigitsRev (ds : List Nat) : Nat :=
  ds.foldr (fun d a => 10 * a + d) 0

theorem ofDigitsRev_natDigitsRev {fuel n : Nat} (h : n ≤ fuel) :
    ofDigitsRev (natDigitsRev fuel n) = n := by
  induction fuel generalizing n with
  | zero =>
      interval_cases n
      rfl
  | succ f ih =>
      by_cases h0 : n = 0
      · simp [natDigitsRev, h0, ofDigitsRev]
      · rw [natDigitsRev, if_neg h0]
        have hdiv : n / 10 ≤ f := by
          have := Nat.div_lt_self (Nat.pos_of_ne_zero h0) (by norm_num : 1 < 10)
          omega
        show 10 * ofDigitsRev (natDigitsRev f (n / 10)) + n % 10 = n
        rw [ih hdiv]
        omega

theorem natDigitsRev_lt_ten {fuel n : Nat} : ∀ d ∈ natDigitsRev fuel n, d < 10 := by
  induction fuel generalizing n with
  | zero => intro d hd; exact absurd hd (List.not_mem_nil d)
  | succ f ih =>
      intro d hd
      rw [natDigitsRev] at hd
      by_cases h0 : n = 0
      · rw [if_pos h0] at hd; exact absurd hd (List.not_mem_nil d)
      · rw [if_neg h0] at hd
        rcases List.mem_cons.1 hd with h | h
        · rw [h]; exact Nat.mod_lt n (by norm_num)
        · exact ih d h

theorem charDigit_digitChar {d : Nat} (h : d < 10) : charDigit (digitChar d) = d := by
  interval_cases d <;> rfl

theorem isDigitC_digitChar {d : Nat} (h : d < 10) : isDigitC (digitChar d) = true := by
  interval_cases d <;> rfl

theorem natToChars_all_digits {n : Nat} : ∀ c ∈ natToChars n, isDigitC c = true := by
  intro c hc
  rw [natToChars] at hc
  by_cases h0 : n = 0
  · rw [if_pos h0] at hc
    rcases List.mem_singleton.1 hc with h
    rw [h]; rfl
  · rw [if_neg h0] at hc
    rcases List.mem_map.1 (List.mem_reverse.1 hc) with ⟨d, hd, rfl⟩
    exact isDigitC_digitChar (natDigitsRev_lt_ten d hd)

theorem natToChars_ne_nil {n : Nat} : natToChars n ≠ [] := by
  rw [natToChars]
  by_cases h0 : n = 0
  · rw [if_pos h0]; exact List.cons_ne_nil _ _
  · rw [if_neg h0]
    intro h
    have hnil : natDigitsRev n n = [] := by
      rcases hr : natDigitsRev n n with _ | ⟨d, ds⟩
      · rfl
      · rw [hr] at h; simp at h
    have := ofDigitsRev_natDigitsRev (Nat.le_refl n)
    rw [hnil] at this
    exact h0 (this.symm.trans rfl)

theorem foldr_map_digitChar {ds : List Nat} (h : ∀ d ∈ ds, d < 10) :
    (ds.map digitChar).foldr (fun c a => 10 * a + charDigit c) 0 = ofDigitsRev ds := by
  induction ds with
  | nil => rfl
  | cons d t ih =>
      rw [List.map_cons, List.foldr_cons,
        ih (fun x hx => h x (List.mem_cons_of_mem _ hx)),
        charDigit_digitChar (h d (List.mem_cons_self _ _))]
      rfl

theorem castNat_natToChars (n : Nat) : castNat (natToChars n) = some n := by
  have hne : (natToChars n).isEmpty = false := by
    rcases hh : natToChars n with _ | ⟨c, t⟩
    · exact absurd hh natToChars_ne_nil
    · rfl
  have hall : (natToChars n).all isDigitC = true :=
    List.all_eq_true.2 fun c hc => natToChars_all_digits c hc
  have hfold : (natToChars n).foldl (fun a c => 10 * a + charDigit c) 0 = n := by
    by_cases h0 : n = 0
    · subst h0; decide
    · rw [natToChars, if_neg h0, List.foldl_reverse,
        foldr_map_digitChar (fun d hd => natDigitsRev_lt_ten d hd),
        ofDigitsRev_natDigitsRev (Nat.le_refl n)]
  rw [castNat, if_neg (by rw [hne, hall]; decide), hfold]

theorem natToChars_head_ne_minus {n : Nat} {c : Char} {t : List Char}
    (hh : natToChars n = c :: t) : ¬(c = Char.ofNat 45) := by
  have hd : isDigitC c = true :=
    natToChars_all_digits (n := n) c (by rw [hh]; exact List.mem_cons_self _ _)
  intro hcm
  rw [hcm] at hd
  exact absurd hd (by decide)

theorem castInt_intToChars (v : Int) : castInt (intToChars v) = some v := by
  by_cases hv : v < 0
  · rw [intToChars, if_pos hv, castInt, if_pos rfl, castNat_natToChars]
    show some (-((v.natAbs : Nat) : Int)) = some v
    have : -((v.natAbs : Nat) : Int) = v := by omega
    rw [this]
  · rw [intToChars, if_neg hv]
    rcases hh : natToChars v.natAbs with _ | ⟨c, t⟩
    · exact absurd hh natToChars_ne_nil
    · rw [castInt, if_neg (natToChars_head_ne_minus hh), ← hh, castNat_natToChars]
      show some (((v.natAbs : Nat) : Int)) = some v
      have : ((v.natAbs : Nat) : Int) = v := by omega
      rw [this]

theorem intToChars_no_ws {v : Int} : ∀ c ∈ intToChars v, isWS c = false := by
  intro c hc
  rw [intToChars] at hc
  by_cases hv : v < 0
  · rw [if_pos hv] at hc
    rcases List.mem_cons.1 hc with h | h
    · rw [h]; rfl
    · exact isDigitC_not_isWS (natToChars_all_digits c h)
  · rw [if_neg hv] at hc
    exact isDigitC_not_isWS (natToChars_all_digits c hc)

theorem stripWS_intToChars (v : Int) : stripWS (intToChars v) = intToChars v :=
  stripWS_of_no_ws intToChars_no_ws

theorem intToChars_ne_nil {v : Int} : intToChars v ≠ [] := by
  rw [intToChars]
  by_cases hv : v < 0
  · rw [if_pos hv]; exact List.cons_ne_nil _ _
  · rw [if_neg hv]; exact natToChars_ne_nil

/-! ## The index iterator (`_IndexIter`)

Embeds the `_IndexIter` class: a shape, a mutable index list, and a
stop flag.  `next` returns the current index and the successor state,
or `none` for `StopIteration`. -/

/-- One odometer step of `_IndexIter.next`: increment position 0; on
reaching the size, reset to 0 and carry left; the Boolean is true when
the carry runs off the end (the `for`/`else` sets `stop`). -/
def incr : List Nat → List Nat → List Nat × Bool
  | [], _ => ([], true)
  | _ :: _, [] => ([], true)
  | i :: is, s :: ss =>
      if i + 1 < s then ((i + 1) :: is, false)
      else
        let r := incr is ss
        (0 :: r.1, r.2)

/-- State of a `_IndexIter` object. -/
structure IndexIter where
  shape : List Nat
  index : List Nat
  stop : Bool
deriving Repr, DecidableEq

/-- `_IndexIter.__init__`: index all zero, stopped iff a dimension has
size zero. -/
def IndexIter.init (shape : List Nat) : IndexIter :=
  ⟨shape, List.replicate shape.length 0, shape.contains 0⟩

/-- `_IndexIter.next`: `StopIteration` when stopped, otherwise the
current index together with the advanced iterator. -/
def IndexIter.next (it : IndexIter) : Option (List Nat × IndexIter) :=
  if it.stop then none
  else some (it.index, ⟨it.shape, (incr it.index it.shape).1, (incr it.index it.shape).2⟩)

/-- Odometer value of an index: position 0 is the fastest-varying
(least significant) digit. -/
def valOf : List Nat → List Nat → Nat
  | [], _ => 0
  | _ :: _, [] => 0
  | i :: is, s :: ss => i + s * valOf is ss

/-- An index is valid for a shape when it has the same length and is
pointwise below the sizes. -/
def ValidIx (i s : List Nat) : Prop := List.Forall₂ (· < ·) i s

theorem valOf_lt_prod {i s : List Nat} (h : ValidIx i s) : valOf i s < s.prod := by
  induction h with
  | nil => exact Nat.zero_lt_one
  | @cons a b l₁ l₂ hab _ ih =>
      rw [valOf, List.prod_cons]
      calc a + b * valOf l₁ l₂ < b + b * valOf l₁ l₂ := by omega
        _ = b * (valOf l₁ l₂ + 1) := by rw [Nat.mul_succ]; omega
        _ ≤ b * l₂.prod := Nat.mul_le_mul_left b ih

theorem incr_of_lt {i s : List Nat} (h : ValidIx i s)
    (hlt : valOf i s + 1 < s.prod) :
    (incr i s).2 = false ∧ ValidIx (incr i s).1 s ∧
      valOf (incr i s).1 s = valOf i s + 1 := by
  induction h with
  | nil =>
      rw [valOf, List.prod_nil] at hlt
      omega
  | @cons a b l₁ l₂ hab htail ih =>
      rw [valOf, List.prod_cons] at hlt
      by_cases hc : a + 1 < b
      · rw [incr, if_pos hc]
        exact ⟨rfl, List.Forall₂.cons hc htail, by simp only [valOf]; omega⟩
      · have hab1 : a + 1 = b := by omega
        have htlt : valOf l₁ l₂ + 1 < l₂.prod := by
          by_contra hge
          push_neg at hge
          have hv : valOf l₁ l₂ < l₂.prod := valOf_lt_prod htail
          have hveq : valOf l₁ l₂ + 1 = l₂.prod := by omega
          have hbp : b * l₂.prod = b * valOf l₁ l₂ + b := by
            rw [← hveq, Nat.mul_succ]
          omega
        rcases ih htlt with ⟨hov, hval, hv⟩
        rw [incr, if_neg hc]
        refine ⟨hov, List.Forall₂.cons (by omega) hval, ?_⟩
        simp only [valOf]
        rw [hv, Nat.mul_succ]
        omega

theorem incr_of_last {i s : List Nat} (h : ValidIx i s)
    (hlast : valOf i s + 1 = s.prod) : (incr i s).2 = true := by
  induction h with
  | nil => rfl
  | @cons a b l₁ l₂ hab htail ih =>
      rw [valOf, List.prod_cons] at hlast
      by_cases hc : a + 1 < b
      · exfalso
        have hv : valOf l₁ l₂ < l₂.prod := valOf_lt_prod htail
        have h2 : b * (valOf l₁ l₂ + 1) ≤ b * l₂.prod := Nat.mul_le_mul_left b hv
        rw [Nat.mul_succ] at h2
        omega
      · have hab1 : a + 1 = b := by omega
        have hb : 0 < b := by omega
        have hmul : b * (valOf l₁ l₂ + 1) = b * l₂.prod := by
          rw [Nat.mul_succ]
          omega
        have htlast : valOf l₁ l₂ + 1 = l₂.prod :=
          Nat.eq_of_mul_eq_mul_left hb hmul
        rw [incr, if_neg hc]
        exact ih htlast

/-- Iterator invariant: after `k` of the `s.prod` values have been
yielded, the iterator is stopped exactly at the end, and otherwise
holds the valid index of odometer value `k`. -/
def IterInv (shape : List Nat) (k : Nat) (it : IndexIter) : Prop :=
  it.shape = shape ∧
    ((k = shape.prod ∧ it.stop = true) ∨
      (k < shape.prod ∧ it.stop = false ∧ ValidIx it.index shape ∧
        valOf it.index shape = k))

theorem validIx_zero {shape : List Nat} (h : ¬0 ∈ shape) :
    ValidIx (List.replicate shape.length 0) shape := by
  induction shape with
  | nil => exact List.Forall₂.nil
  | cons s ss ih =>
      rw [List.length_cons, List.replicate_succ]
      refine List.Forall₂.cons ?_ (ih fun hm => h (List.mem_cons_of_mem _ hm))
      have : s ≠ 0 := fun h0 => h (h0 ▸ List.mem_cons_self _ _)
      omega

theorem valOf_zero {shape : List Nat} :
    valOf (List.replicate shape.length 0) shape = 0 := by
  induction shape with
  | nil => rfl
  | cons s ss ih =>
      rw [List.length_cons, List.replicate_succ, valOf, ih, Nat.mul_zero]

theorem contains_zero_of_mem {shape : List Nat} (h : 0 ∈ shape) :
    shape.contains 0 = true := by
  simp [List.contains, List.elem_eq_mem, h]

theorem contains_zero_of_not_mem {shape : List Nat} (h : ¬0 ∈ shape) :
    shape.contains 0 = false := by
  simp [List.contains, List.elem_eq_mem, h]

theorem iterInv_init (shape : List Nat) : IterInv shape 0 (IndexIter.init shape) := by
  refine ⟨rfl, ?_⟩
  by_cases hz : 0 ∈ shape
  · left
    constructor
    · exact (List.prod_eq_zero hz).symm
    · exact contains_zero_of_mem hz
  · right
    have hpos : 0 < shape.prod := Nat.pos_of_ne_zero fun h0 =>
      hz (List.prod_eq_zero_iff.1 h0)
    exact ⟨hpos, contains_zero_of_not_mem hz, validIx_zero hz, valOf_zero⟩

theorem iterInv_next_lt {shape : List Nat} {k : Nat} {it : IndexIter}
    (h : IterInv shape k it) (hk : k < shape.prod) :
    ∃ it₂ : IndexIter, it.next = some (it.index, it₂) ∧
      ValidIx it.index shape ∧ valOf it.index shape = k ∧
      IterInv shape (k + 1) it₂ := by
  rcases h with ⟨hsh, hdone | ⟨hklt, hstop, hval, hv⟩⟩
  · omega
  · subst hsh
    refine ⟨⟨it.shape, (incr it.index it.shape).1, (incr it.index it.shape).2⟩,
      ?_, hval, hv, rfl, ?_⟩
    · rw [IndexIter.next, if_neg (by rw [hstop]; exact Bool.false_ne_true)]
    · by_cases hk1 : k + 1 < it.shape.prod
      · right
        rcases incr_of_lt hval (by rw [hv]; omega) with ⟨hov, hval2, hv2⟩
        exact ⟨hk1, hov, hval2, by rw [hv2, hv]⟩
      · left
        exact ⟨by omega, incr_of_last hval (by rw [hv]; omega)⟩

theorem iterInv_next_none {shape : List Nat} {it : IndexIter}
    (h : IterInv shape shape.prod it) : it.next = none := by
  rcases h with ⟨_, ⟨_, hstop⟩ | ⟨hlt, _⟩⟩
  · rw [IndexIter.next, if_pos hstop]
  · omega

/-- The sequence of indices produced by repeatedly calling `next`, up
to `fuel` calls, stopping at `StopIteration`. -/
def iterTake : IndexIter → Nat → List (List Nat)
  | _, 0 => []
  | it, fuel + 1 =>
      match it.next with
      | none => []
      | some (i, it₂) => i :: iterTake it₂ fuel

theorem iterTake_spec {shape : List Nat} {k : Nat} {it : IndexIter}
    (h : IterInv shape k it) :
    ∀ {fuel : Nat}, shape.prod - k ≤ fuel →
      (iterTake it fuel).length = shape.prod - k ∧
      ∀ (j : Nat) (i : List Nat), (iterTake it fuel)[j]? = some i →
        ValidIx i shape ∧ valOf i shape = k + j := by
  intro fuel
  induction fuel generalizing k it with
  | zero =>
      intro hf
      refine ⟨?_, ?_⟩
      · rw [iterTake, List.length_nil]; omega
      · intro j i hji
        rw [iterTake] at hji
        simp at hji
  | succ f ih =>
      intro hf
      by_cases hk : k < shape.prod
      · rcases iterInv_next_lt h hk with ⟨it₂, hnext, hval, hv, hinv₂⟩
        rw [iterTake, hnext]
        rcases ih hinv₂ (by omega) with ⟨hlen, helem⟩
        refine ⟨?_, ?_⟩
        · rw [List.length_cons, hlen]; omega
        · intro j i hji
          cases j with
          | zero =>
              rw [List.getElem?_cons_zero] at hji
              rcases Option.some.inj hji with rfl
              exact ⟨hval, by rw [hv]; omega⟩
          | succ j =>
              rw [List.getElem?_cons_succ] at hji
              rcases helem j i hji with ⟨hv1, hv2⟩
              exact ⟨hv1, by rw [hv2]; omega⟩
      · have hke : k = shape.prod := by
          rcases h with ⟨_, ⟨he, _⟩ | ⟨hlt, _⟩⟩
          · exact he
          · omega
        subst hke
        rw [iterTake, iterInv_next_none h]
        refine ⟨by rw [List.length_nil]; omega, ?_⟩
        intro j i hji
        simp at hji

theorem valOf_inj {s i j : List Nat} (hi : ValidIx i s) (hj : ValidIx j s)
    (hv : valOf i s = valOf j s) : i = j := by
  induction hi generalizing j with
  | nil =>
      cases hj
      rfl
  | @cons a b l₁ l₂ hab htail ih =>
      cases hj with
      | cons hcb htail₂ =>
          rename_i c j'
          simp only [valOf] at hv
          have hmod : a = c := by
            have h1 : (a + b * valOf l₁ l₂) % b = a := by
              rw [Nat.add_mul_mod_self_left]
              exact Nat.mod_eq_of_lt hab
            have h2 : (c + b * valOf j' l₂) % b = c := by
              rw [Nat.add_mul_mod_self_left]
              exact Nat.mod_eq_of_lt hcb
            rw [← h1, ← h2, hv]
          subst hmod
          have hb : 0 < b := by omega
          have hrest : valOf l₁ l₂ = valOf j' l₂ :=
            Nat.eq_of_mul_eq_mul_left hb (by omega)
          rw [ih htail₂ hrest]

theorem iterTake_complete {shape : List Nat} {i : List Nat} {fuel : Nat}
    (hval : ValidIx i shape) (hf : shape.prod ≤ fuel) :
    i ∈ iterTake (IndexIter.init shape) fuel := by
  rcases @iterTake_spec shape 0 (IndexIter.init shape) (iterInv_init shape) fuel (by omega)
    with ⟨hlen, helem⟩
  have hvlt : valOf i shape < shape.prod := valOf_lt_prod hval
  have hjlt : valOf i shape < (iterTake (IndexIter.init shape) fuel).length := by omega
  rcases List.getElem?_eq_some_iff.2 ⟨hjlt, rfl⟩ with hsome
  rcases helem (valOf i shape) _ hsome with ⟨hval2, hv2⟩
  have : (iterTake (IndexIter.init shape) fuel)[valOf i shape] = i :=
    valOf_inj hval2 hval (by rw [hv2]; omega)
  rw [← this]
  exact List.getElem_mem hjlt

/-! ## The parse path (`ArrayStream.appendData`)

The stream's incremental tokenizer is modelled character by
character: non-delimiter characters accumulate in a pending buffer
(kept reversed); each delimiter occurrence completes a token, which is
whitespace-stripped, cast, and stored at the next index from the
cursor.  Errors abort the call, leaving the state as mutation left
it. -/

/-- Errors of the parse path: `ligolw.ElementError("too many values in
Array")` on cursor exhaustion, a `ValueError` from the scalar cast,
and the `TypeError` raised by `Array.__init__` for an unrecognized
`Type` attribute. -/
inductive ParseError
  | overflow
  | badToken
  | unknownType
deriving Repr, DecidableEq

/-- The allocated array buffer and the stream cursor.  The buffer is
flat, position `valOf i shape` holding the element at multi-index
`i`. -/
structure FillState where
  buf : List Int
  cur : IndexIter
deriving Repr, DecidableEq

/-- Store one completed token text: strip whitespace; a token that is
all whitespace yields no value (modelled from the spec: cosmetic line
breaks must not parse as values); otherwise cast and place the value
at the next index from the cursor, `overflow` if it is exhausted. -/
def storeTok (f : FillState) (tok : List Char) : FillState × Option ParseError :=
  if (stripWS tok).isEmpty then (f, none)
  else
    match castInt (stripWS tok) with
    | none => (f, some ParseError.badToken)
    | some v =>
        match f.cur.next with
        | none => (f, some ParseError.overflow)
        | some (idx, cur₂) => (⟨f.buf.set (valOf idx f.cur.shape) v, cur₂⟩, none)

/-- Feed one character to the tokenizer: a delimiter completes the
pending token, any other character extends it. -/
def stepChar (d : Char) (st : FillState × List Char) (c : Char) :
    (FillState × List Char) × Option ParseError :=
  if c = d then
    match storeTok st.1 st.2.reverse with
    | (f₂, none) => ((f₂, []), none)
    | (_, some e) => (st, some e)
  else ((st.1, c :: st.2), none)

/-- Feed a chunk of characters, stopping at the first error. -/
def processChars (d : Char) (st : FillState × List Char) :
    List Char → (FillState × List Char) × Option ParseError
  | [] => (st, none)
  | c :: cs =>
      match stepChar d st c with
      | (st₂, none) => processChars d st₂ cs
      | (st₂, some e) => (st₂, some e)

/-- The per-node stream state: buffer and cursor are absent until the
first `appendData` call. -/
structure StreamState where
  fill : Option FillState
  pending : List Char
deriving Repr, DecidableEq

/-- `ArrayStream.appendData`: on the first call allocate the buffer,
zero-filled with `shape.prod` elements, and construct a fresh
`_IndexIter` over the shape; then tokenize the chunk and store each
token. -/
def appendData (shape : List Nat) (d : Char) (st : StreamState) (content : List Char) :
    StreamState × Option ParseError :=
  match processChars d
      (st.fill.getD ⟨List.replicate shape.prod 0, IndexIter.init shape⟩, st.pending)
      content with
  | ((f₂, p₂), e) => (⟨some f₂, p₂⟩, e)

/-- The stream state of a freshly constructed `ArrayStream`. -/
def freshStream : StreamState := ⟨none, []⟩

/-- Token texts as supplied by a caller: each value rendered in
decimal and terminated by the delimiter (the last delimiter being the
flush the caller appends at end of element). -/
def tokensText (d : Char) : List Int → List Char
  | [] => []
  | v :: vs => intToChars v ++ [d] ++ tokensText d vs

theorem processChars_append (d : Char) (st : FillState × List Char) (a b : List Char) :
    processChars d st (a ++ b) =
      match processChars d st a with
      | (st₂, none) => processChars d st₂ b
      | (st₂, some e) => (st₂, some e) := by
  induction a generalizing st with
  | nil => rfl
  | cons c cs ih =>
      rw [List.cons_append]
      show (match stepChar d st c with
        | (st₂, none) => processChars d st₂ (cs ++ b)
        | (st₂, some e) => (st₂, some e)) =
        match (match stepChar d st c with
          | (st₂, none) => processChars d st₂ cs
          | (st₂, some e) => (st₂, some e)) with
        | (st₂, none) => processChars d st₂ b
        | (st₂, some e) => (st₂, some e)
      rcases stepChar d st c with ⟨st₂, _ | e⟩
      · exact ih st₂
      · rfl

theorem processChars_no_delim {d : Char} {f : FillState} {p : List Char}
    {cs : List Char} (h : ∀ c ∈ cs, c ≠ d) :
    processChars d (f, p) cs = ((f, cs.reverse ++ p), none) := by
  induction cs generalizing p with
  | nil => rfl
  | cons c cs ih =>
      show (match stepChar d (f, p) c with
        | (st₂, none) => processChars d st₂ cs
        | (st₂, some e) => (st₂, some e)) = _
      rw [stepChar, if_neg (h c (List.mem_cons_self _ _))]
      show processChars d (f, c :: p) cs = _
      rw [ih fun x hx => h x (List.mem_cons_of_mem _ hx)]
      rw [List.reverse_cons, List.append_assoc]
      rfl

theorem processChars_ws {d : Char} {f : FillState} {p w : List Char}
    (hp : ∀ c ∈ p, isWS c = true) (hw : ∀ c ∈ w, isWS c = true) :
    ∃ p₂, processChars d (f, p) w = ((f, p₂), none) ∧ ∀ c ∈ p₂, isWS c = true := by
  induction w generalizing p with
  | nil => exact ⟨p, rfl, hp⟩
  | cons c w ih =>
      show ∃ p₂, (match stepChar d (f, p) c with
        | (st₂, none) => processChars d st₂ w
        | (st₂, some e) => (st₂, some e)) = ((f, p₂), none) ∧ _
      by_cases hc : c = d
      · rw [stepChar, if_pos hc]
        have hstore : storeTok f p.reverse = (f, none) := by
          rw [storeTok]
          have : stripWS p.reverse = [] :=
            stripWS_of_all_ws fun x hx => hp x (List.mem_reverse.1 hx)
          simp [this]
        rw [hstore]
        exact ih (p := []) (fun x hx => absurd hx (List.not_mem_nil x))
          (fun x hx => hw x (List.mem_cons_of_mem _ hx))
      · rw [stepChar, if_neg hc]
        exact ih (p := c :: p)
          (fun x hx => by
            rcases List.mem_cons.1 hx with h1 | h1
            · rw [h1]; exact hw c (List.mem_cons_self _ _)
            · exact hp x h1)
          (fun x hx => hw x (List.mem_cons_of_mem _ hx))

theorem intToChars_isEmpty_false {v : Int} : (intToChars v).isEmpty = false := by
  rcases h : intToChars v with _ | ⟨c, t⟩
  · exact absurd h intToChars_ne_nil
  · rfl

theorem intToChars_ne_delim {d : Char} {v : Int} (hdig : isDigitC d = false)
    (hm : d ≠ Char.ofNat 45) : ∀ c ∈ intToChars v, c ≠ d := by
  intro c hc hcd
  rw [hcd] at hc
  rw [intToChars] at hc
  by_cases hv : v < 0
  · rw [if_pos hv] at hc
    rcases List.mem_cons.1 hc with h1 | h1
    · exact hm h1
    · rw [natToChars_all_digits d h1] at hdig
      exact absurd hdig (by decide)
  · rw [if_neg hv] at hc
    rw [natToChars_all_digits d hc] at hdig
    exact absurd hdig (by decide)

theorem set_append_zeros {done : List Int} {n : Nat} {v : Int} (hn : 0 < n) :
    (done ++ List.replicate n 0).set done.length v =
      done ++ v :: List.replicate (n - 1) 0 := by
  induction done with
  | nil =>
      cases n with
      | zero => omega
      | succ m =>
          rw [List.replicate_succ]
          rfl
  | cons a t ih =>
      rw [List.cons_append, List.cons_append, List.length_cons, List.set_cons_succ, ih]

/-- Storing a token text that strips to the decimal text of value `v`
when the cursor still has room places `v` at the next flat position
and advances the cursor. -/
theorem storeTok_value {shape : List Nat} {f : FillState} {done : List Int} {v : Int}
    {tok : List Char} (hstrip : stripWS tok = intToChars v)
    (hinv : IterInv shape done.length f.cur)
    (hbuf : f.buf = done ++ List.replicate (shape.prod - done.length) 0)
    (hlt : done.length < shape.prod) :
    ∃ cur₂, storeTok f tok =
      (⟨done ++ v :: List.replicate (shape.prod - done.length - 1) 0, cur₂⟩, none) ∧
      IterInv shape (done.length + 1) cur₂ := by
  rcases iterInv_next_lt hinv hlt with ⟨it₂, hnext, hval, hv, hinv₂⟩
  refine ⟨it₂, ?_, hinv₂⟩
  rw [storeTok, hstrip, if_neg (by simp [intToChars_isEmpty_false]),
    castInt_intToChars]
  show (match f.cur.next with
    | none => (f, some ParseError.overflow)
    | some (idx, cur₂) =>
        (FillState.mk (f.buf.set (valOf idx f.cur.shape) v) cur₂, none)) = _
  rw [hnext]
  show (FillState.mk (f.buf.set (valOf f.cur.index f.cur.shape) v) it₂,
    (none : Option ParseError)) = _
  rw [hinv.1, hv, hbuf, set_append_zeros (by omega)]

/-- Storing a token text that strips to a value's decimal text on an
exhausted cursor fails with the overflow error and leaves the state
untouched. -/
theorem storeTok_overflow {shape : List Nat} {f : FillState} {v : Int}
    {tok : List Char} (hstrip : stripWS tok = intToChars v)
    (hinv : IterInv shape shape.prod f.cur) :
    storeTok f tok = (f, some ParseError.overflow) := by
  rw [storeTok, hstrip, if_neg (by simp [intToChars_isEmpty_false]),
    castInt_intToChars]
  show (match f.cur.next with
    | none => (f, some ParseError.overflow)
    | some (idx, cur₂) =>
        (FillState.mk (f.buf.set (valOf idx f.cur.shape) v) cur₂, none)) = _
  rw [iterInv_next_none hinv]

theorem processChars_cons (d : Char) (st : FillState × List Char) (c : Char) (cs : List Char) :
    processChars d st (c :: cs) =
      match stepChar d st c with
      | (st₂, none) => processChars d st₂ cs
      | (st₂, some e) => (st₂, some e) := rfl

theorem stepChar_delim (d : Char) (f : FillState) (p : List Char) :
    stepChar d (f, p) d =
      match storeTok f p.reverse with
      | (f₂, none) => ((f₂, []), none)
      | (_, some e) => ((f, p), some e) := by
  rw [stepChar, if_pos rfl]

/-- Feeding the delimiter-terminated token texts of `vals` into a
partially filled state stores them in sequencer order when they fit. -/
theorem processTokens_ok {shape : List Nat} {d : Char}
    (hdig : isDigitC d = false) (hm : d ≠ Char.ofNat 45) :
    ∀ (vals done : List Int) (f : FillState),
      IterInv shape done.length f.cur →
      f.buf = done ++ List.replicate (shape.prod - done.length) 0 →
      done.length + vals.length ≤ shape.prod →
      ∃ cur₂,
        processChars d (f, []) (tokensText d vals) =
          ((⟨done ++ vals ++ List.replicate (shape.prod - done.length - vals.length) 0, cur₂⟩, []),
            none) ∧
        IterInv shape (done.length + vals.length) cur₂ := by
  intro vals
  induction vals with
  | nil =>
      intro done f hinv hbuf _
      refine ⟨f.cur, ?_, by simpa using hinv⟩
      show ((f, []), none) = _
      rcases f with ⟨buf, cur⟩
      simp only at hbuf
      rw [hbuf]
      simp
  | cons v vs ih =>
      intro done f hinv hbuf hle
      have hlenc : (v :: vs).length = vs.length + 1 := by simp
      have hlt : done.length < shape.prod := by
        rw [hlenc] at hle; omega
      rcases storeTok_value (stripWS_intToChars v) hinv hbuf hlt with ⟨cur₂, hstore, hinv₂⟩
      have hlen1 : (done ++ [v]).length = done.length + 1 := by simp
      rcases ih (done ++ [v])
          ⟨done ++ v :: List.replicate (shape.prod - done.length - 1) 0, cur₂⟩
          (by rw [hlen1]; exact hinv₂)
          (by
            show done ++ v :: List.replicate (shape.prod - done.length - 1) 0 =
              (done ++ [v]) ++ List.replicate (shape.prod - (done ++ [v]).length) 0
            rw [hlen1, List.append_assoc, List.singleton_append, Nat.sub_sub])
          (by rw [hlen1]; rw [hlenc] at hle; omega)
        with ⟨cur₃, hrest, hinv₃⟩
      have hnum : shape.prod - (done ++ [v]).length - vs.length =
          shape.prod - done.length - (v :: vs).length := by
        rw [hlen1, hlenc]; omega
      rw [hnum] at hrest
      have hbufeq : (done ++ [v]) ++ vs ++
            List.replicate (shape.prod - done.length - (v :: vs).length) 0 =
          done ++ (v :: vs) ++
            List.replicate (shape.prod - done.length - (v :: vs).length) 0 := by
        simp [List.append_assoc]
      rw [hbufeq] at hrest
      have hcnt : (done ++ [v]).length + vs.length = done.length + (v :: vs).length := by
        rw [hlen1, hlenc]; omega
      rw [hcnt] at hinv₃
      refine ⟨cur₃, ?_, hinv₃⟩
      have hAB : processChars d (f, []) (intToChars v ++ [d]) =
          ((⟨done ++ v :: List.replicate (shape.prod - done.length - 1) 0, cur₂⟩, []), none) := by
        rw [processChars_append, processChars_no_delim (intToChars_ne_delim hdig hm),
          List.append_nil]
        show processChars d (f, (intToChars v).reverse) [d] = _
        rw [processChars_cons, stepChar_delim, List.reverse_reverse, hstore]
        rfl
      rw [tokensText, processChars_append, hAB]
      exact hrest

/-- Feeding more delimiter-terminated token texts than the shape has
room for stores the first `shape.prod` of them, then fails with the
overflow error, leaving the fully filled buffer in place. -/
theorem processTokens_over {shape : List Nat} {d : Char}
    (hdig : isDigitC d = false) (hm : d ≠ Char.ofNat 45) :
    ∀ (vals done : List Int) (f : FillState),
      IterInv shape done.length f.cur →
      f.buf = done ++ List.replicate (shape.prod - done.length) 0 →
      shape.prod < done.length + vals.length →
      ∃ f₂ p₂,
        processChars d (f, []) (tokensText d vals) = ((f₂, p₂), some ParseError.overflow) ∧
        f₂.buf = done ++ vals.take (shape.prod - done.length) ∧
        f₂.buf.length = shape.prod := by
  intro vals
  induction vals with
  | nil =>
      intro done f hinv hbuf hgt
      exfalso
      rw [List.length_nil] at hgt
      rcases hinv with ⟨_, ⟨he, _⟩ | ⟨hlt, _⟩⟩
      · omega
      · omega
  | cons v vs ih =>
      intro done f hinv hbuf hgt
      have hlenc : (v :: vs).length = vs.length + 1 := by simp
      by_cases hfull : done.length < shape.prod
      · rcases storeTok_value (stripWS_intToChars v) hinv hbuf hfull with ⟨cur₂, hstore, hinv₂⟩
        have hlen1 : (done ++ [v]).length = done.length + 1 := by simp
        rcases ih (done ++ [v])
            ⟨done ++ v :: List.replicate (shape.prod - done.length - 1) 0, cur₂⟩
            (by rw [hlen1]; exact hinv₂)
            (by
              show done ++ v :: List.replicate (shape.prod - done.length - 1) 0 =
                (done ++ [v]) ++ List.replicate (shape.prod - (done ++ [v]).length) 0
              rw [hlen1, List.append_assoc, List.singleton_append, Nat.sub_sub])
            (by rw [hlen1]; rw [hlenc] at hgt; omega)
          with ⟨f₂, p₂, hrest, hbuf₂, hlen₂⟩
        refine ⟨f₂, p₂, ?_, ?_, hlen₂⟩
        · have hAB : processChars d (f, []) (intToChars v ++ [d]) =
              ((⟨done ++ v :: List.replicate (shape.prod - done.length - 1) 0, cur₂⟩, []),
                none) := by
            rw [processChars_append, processChars_no_delim (intToChars_ne_delim hdig hm),
              List.append_nil]
            show processChars d (f, (intToChars v).reverse) [d] = _
            rw [processChars_cons, stepChar_delim, List.reverse_reverse, hstore]
            rfl
          rw [tokensText, processChars_append, hAB]
          exact hrest
        · rw [hbuf₂, hlen1]
          have hn : shape.prod - done.length = (shape.prod - (done.length + 1)) + 1 := by
            omega
          rw [hn, List.take_succ_cons, List.append_assoc, List.singleton_append]
      · have hend : done.length = shape.prod := by
          rcases hinv with ⟨_, ⟨he, _⟩ | ⟨hlt, _⟩⟩
          · exact he
          · omega
        refine ⟨f, (intToChars v).reverse, ?_, ?_, ?_⟩
        · have hAB : processChars d (f, []) (intToChars v ++ [d]) =
              ((f, (intToChars v).reverse), some ParseError.overflow) := by
            rw [processChars_append, processChars_no_delim (intToChars_ne_delim hdig hm),
              List.append_nil]
            show processChars d (f, (intToChars v).reverse) [d] = _
            rw [processChars_cons, stepChar_delim, List.reverse_reverse,
              storeTok_overflow (stripWS_intToChars v) (hend ▸ hinv)]
          rw [tokensText, processChars_append, hAB]
        · rw [hbuf, hend, Nat.sub_self]
          simp
        · rw [hbuf, List.length_append, List.length_replicate, hend]
          omega

/-! ## The write path (`ArrayStream.write`) -/

/-- Modelled from the spec: the document library's indentation unit
(`ligolw.Indent`), a tab — "a line break plus indentation". -/
def ligolwIndent : List Char := [Char.ofNat 9]

/-- The body of `ArrayStream.write`'s loop, starting at the current
index `cur` with write iterator `it`: emit the element at `cur`; on
`StopIteration` emit the final line break; otherwise emit the
delimiter, a line break plus indentation when the fastest dimension is
about to restart at 0, and continue.  Fuel makes the recursion
structural; `write` supplies `shape.prod`. -/
def writeLoop (d : Char) (indent : List Char) (shape : List Nat) (a : List Int) :
    List Nat → IndexIter → Nat → List Char
  | _, _, 0 => []
  | cur, it, fuel + 1 =>
      intToChars (a.getD (valOf cur shape) 0) ++
        match it.next with
        | none => [Char.ofNat 10]
        | some (cur₂, it₂) =>
            [d] ++
              (if cur₂.headD 1 = 0 then Char.ofNat 10 :: (indent ++ ligolwIndent) else []) ++
              writeLoop d indent shape a cur₂ it₂ fuel

/-- The character data `ArrayStream.write` places between the start
tag and the end tag: the newline ending the start-tag line, then —
unless the iterator is exhausted at once — the first line's
indentation and the element loop (which ends with a line break), and
finally the indentation preceding the end tag. -/
def writeChardata (d : Char) (indent : List Char) (shape : List Nat) (a : List Int) :
    List Char :=
  Char.ofNat 10 ::
    ((match (IndexIter.init shape).next with
      | none => [Char.ofNat 10]
      | some (cur₀, it₀) =>
          indent ++ ligolwIndent ++ writeLoop d indent shape a cur₀ it₀ shape.prod) ++
      indent)

theorem ligolwIndent_ws : ∀ c ∈ ligolwIndent, isWS c = true := by
  intro c hc
  rcases List.mem_singleton.1 hc with h
  rw [h]
  rfl

/-- A whitespace run followed by one delimiter never stores anything:
every token completed on the way strips to nothing. -/
theorem processChars_ws_delim {d : Char} {f : FillState} {p w : List Char}
    (hp : ∀ c ∈ p, isWS c = true) (hw : ∀ c ∈ w, isWS c = true) :
    ∃ p₂, processChars d (f, p) (w ++ [d]) = ((f, p₂), none) ∧
      ∀ c ∈ p₂, isWS c = true := by
  rcases processChars_ws (d := d) hp hw with ⟨p₁, hrun, hp₁⟩
  refine ⟨[], ?_, fun c hc => absurd hc (List.not_mem_nil c)⟩
  rw [processChars_append, hrun]
  show processChars d (f, p₁) [d] = _
  rw [processChars_cons, stepChar_delim]
  have hstore : storeTok f p₁.reverse = (f, none) := by
    rw [storeTok]
    have : stripWS p₁.reverse = [] :=
      stripWS_of_all_ws fun x hx => hp₁ x (List.mem_reverse.1 hx)
    simp [this]
  rw [hstore]
  rfl

/-- Flushing a pending token that strips to the text of value `v`:
any interleaved whitespace is absorbed, the first delimiter stores
`v`, and the remaining whitespace tokens are skipped. -/
theorem processChars_flush {shape : List Nat} {d : Char} {f : FillState}
    {done : List Int} {v : Int} {q w : List Char}
    (hq : stripWS q.reverse = intToChars v)
    (hw : ∀ c ∈ w, isWS c = true)
    (hinv : IterInv shape done.length f.cur)
    (hbuf : f.buf = done ++ List.replicate (shape.prod - done.length) 0)
    (hlt : done.length < shape.prod) :
    ∃ cur₂ p₂,
      processChars d (f, q) (w ++ [d]) =
        ((⟨done ++ v :: List.replicate (shape.prod - done.length - 1) 0, cur₂⟩, p₂), none) ∧
      IterInv shape (done.length + 1) cur₂ ∧ ∀ c ∈ p₂, isWS c = true := by
  induction w generalizing q with
  | nil =>
      rcases storeTok_value hq hinv hbuf hlt with ⟨cur₂, hstore, hinv₂⟩
      refine ⟨cur₂, [], ?_, hinv₂, fun c hc => absurd hc (List.not_mem_nil c)⟩
      rw [List.nil_append, processChars_cons, stepChar_delim, hstore]
      rfl
  | cons c w ih =>
      by_cases hc : c = d
      · subst hc
        rcases storeTok_value hq hinv hbuf hlt with ⟨cur₂, hstore, hinv₂⟩
        rcases processChars_ws_delim (d := c)
            (f := (⟨done ++ v :: List.replicate (shape.prod - done.length - 1) 0, cur₂⟩ : FillState))
            (p := []) (fun x hx => absurd hx (List.not_mem_nil x))
            (fun x hx => hw x (List.mem_cons_of_mem _ hx)) with ⟨p₂, hrun, hp₂⟩
        refine ⟨cur₂, p₂, ?_, hinv₂, hp₂⟩
        rw [List.cons_append, processChars_cons, stepChar_delim, hstore]
        exact hrun
      · have hcws : isWS c = true := hw c (List.mem_cons_self _ _)
        have hq₂ : stripWS (c :: q).reverse = intToChars v := by
          rw [List.reverse_cons, stripWS_ws_right (by
            intro x hx
            rcases List.mem_singleton.1 hx with h
            rw [h]; exact hcws), hq]
        rcases ih hq₂ (fun x hx => hw x (List.mem_cons_of_mem _ hx)) with
          ⟨cur₂, p₂, hrun, hinv₂, hp₂⟩
        refine ⟨cur₂, p₂, ?_, hinv₂, hp₂⟩
        rw [List.cons_append, processChars_cons, stepChar, if_neg hc]
        exact hrun

theorem processChars_seq {d : Char} {st st₂ : FillState × List Char} {X rest : List Char}
    (hX : processChars d st X = (st₂, none)) :
    processChars d st (X ++ rest) = processChars d st₂ rest := by
  rw [processChars_append, hX]

theorem take_succ_getD {a : List Int} {k : Nat} (h : k < a.length) :
    a.take (k + 1) = a.take k ++ [a.getD k 0] := by
  rw [List.take_succ, List.getElem?_eq_getElem h, List.getD_eq_getElem a 0 h]
  rfl

/-- Parsing the text that `write`'s loop emits from position `k`
onwards (followed by the end-tag indentation and the flush delimiter)
completes the buffer to exactly the written values. -/
theorem processWritten {shape : List Nat} {d : Char} {indent : List Char} {a : List Int}
    (hdig : isDigitC d = false) (hm : d ≠ Char.ofNat 45)
    (hind : ∀ c ∈ indent, isWS c = true)
    (hlen : a.length = shape.prod) :
    ∀ (fuel k : Nat) (cur : List Nat) (it : IndexIter) (f : FillState) (p : List Char),
      ValidIx cur shape → valOf cur shape = k →
      IterInv shape (k + 1) it →
      IterInv shape k f.cur →
      f.buf = a.take k ++ List.replicate (shape.prod - k) 0 →
      (∀ c ∈ p, isWS c = true) →
      shape.prod - k ≤ fuel →
      ∃ f₂ p₂,
        processChars d (f, p) (writeLoop d indent shape a cur it fuel ++ (indent ++ [d])) =
          ((f₂, p₂), none) ∧
        f₂.buf = a ∧ IterInv shape shape.prod f₂.cur ∧ ∀ c ∈ p₂, isWS c = true := by
  intro fuel
  induction fuel with
  | zero =>
      intro k cur it f p hcv hvk hit hfinv hfbuf hp hfuel
      exfalso
      have := valOf_lt_prod hcv
      omega
  | succ fuel ih =>
      intro k cur it f p hcv hvk hit hfinv hfbuf hp hfuel
      have hk : k < shape.prod := by
        have := valOf_lt_prod hcv
        omega
      have hka : k < a.length := by omega
      have hdl : (a.take k).length = k := by
        rw [List.length_take]; omega
      have hinv' : IterInv shape (a.take k).length f.cur := by rw [hdl]; exact hfinv
      have hbuf' : f.buf = a.take k ++ List.replicate (shape.prod - (a.take k).length) 0 := by
        rw [hdl]; exact hfbuf
      have hlt' : (a.take k).length < shape.prod := by rw [hdl]; exact hk
      have hbufstep : a.take k ++
            a.getD k 0 :: List.replicate (shape.prod - (a.take k).length - 1) 0 =
          a.take (k + 1) ++ List.replicate (shape.prod - (k + 1)) 0 := by
        rw [hdl, take_succ_getD hka, List.append_assoc, List.singleton_append, Nat.sub_sub]
      have hA : processChars d (f, p) (intToChars (a.getD k 0)) =
          ((f, (intToChars (a.getD k 0)).reverse ++ p), none) :=
        processChars_no_delim (intToChars_ne_delim hdig hm)
      have hqs : stripWS ((intToChars (a.getD k 0)).reverse ++ p).reverse =
          intToChars (a.getD k 0) := by
        rw [List.reverse_append, List.reverse_reverse,
          stripWS_ws_left (fun x hx => hp x (List.mem_reverse.1 hx)), stripWS_intToChars]
      rw [writeLoop, hvk]
      by_cases hk1 : k + 1 < shape.prod
      · rcases iterInv_next_lt hit hk1 with ⟨it₂, hnext, hval₂, hv₂, hinv₂'⟩
        rw [hnext]
        rcases storeTok_value hqs hinv' hbuf' hlt' with ⟨cur₂, hstore, hinv₂⟩
        rw [hdl] at hinv₂
        have hD : processChars d (f, (intToChars (a.getD k 0)).reverse ++ p) [d] =
            ((⟨a.take (k + 1) ++ List.replicate (shape.prod - (k + 1)) 0, cur₂⟩, []), none) := by
          rw [processChars_cons, stepChar_delim, hstore, hbufstep]
          rfl
        have hBws : ∀ c ∈ (if it.index.headD 1 = 0 then
            Char.ofNat 10 :: (indent ++ ligolwIndent) else ([] : List Char)), isWS c = true := by
          by_cases hh : it.index.headD 1 = 0
          · rw [if_pos hh]
            intro c hc
            rcases List.mem_cons.1 hc with h1 | h1
            · rw [h1]; rfl
            · rcases List.mem_append.1 h1 with h2 | h2
              · exact hind c h2
              · exact ligolwIndent_ws c h2
          · rw [if_neg hh]
            intro c hc
            exact absurd hc (List.not_mem_nil c)
        rcases processChars_ws (d := d)
            (f := (⟨a.take (k + 1) ++ List.replicate (shape.prod - (k + 1)) 0, cur₂⟩ : FillState))
            (p := []) (fun x hx => absurd hx (List.not_mem_nil x)) hBws with ⟨pB, hB, hpB⟩
        rcases ih (k + 1) it.index it₂
            ⟨a.take (k + 1) ++ List.replicate (shape.prod - (k + 1)) 0, cur₂⟩ pB
            hval₂ hv₂ hinv₂' hinv₂ rfl hpB (by omega) with
          ⟨f₂, p₂, hrest, hbuf₂, hinvf, hp₂⟩
        refine ⟨f₂, p₂, ?_, hbuf₂, hinvf, hp₂⟩
        simp only [List.append_assoc]
        rw [processChars_seq hA, processChars_seq hD, processChars_seq hB]
        exact hrest
      · have hke : k + 1 = shape.prod := by
          rcases hit with ⟨_, ⟨he, _⟩ | ⟨hlt2, _⟩⟩
          · exact he
          · omega
        rw [iterInv_next_none (hke ▸ hit)]
        rcases processChars_flush (w := Char.ofNat 10 :: indent) hqs
            (by
              intro c hc
              rcases List.mem_cons.1 hc with h1 | h1
              · rw [h1]; rfl
              · exact hind c h1)
            hinv' hbuf' hlt' with ⟨cur₂, p₂, hflush, hinv₂, hp₂⟩
        rw [hdl] at hinv₂
        rw [hbufstep] at hflush
        refine ⟨⟨a.take (k + 1) ++ List.replicate (shape.prod - (k + 1)) 0, cur₂⟩, p₂,
          ?_, ?_, ?_, hp₂⟩
        · simp only [List.append_assoc]
          rw [processChars_seq hA]
          have heq : [Char.ofNat 10] ++ (indent ++ [d]) = (Char.ofNat 10 :: indent) ++ [d] := by
            simp
          rw [heq]
          exact hflush
        · rw [show shape.prod - (k + 1) = 0 from by omega, List.replicate_zero,
            List.append_nil, show k + 1 = shape.prod from hke, ← hlen, List.take_length]
        · rw [show shape.prod = k + 1 from hke.symm]
          exact hinv₂

/-- Parsing everything `write` put between the tags, plus the final
flush delimiter, from a fresh zero-filled state reproduces the
buffer. -/
theorem parseWriteChardata {shape : List Nat} {d : Char} {indent : List Char} {a : List Int}
    (hdig : isDigitC d = false) (hm : d ≠ Char.ofNat 45)
    (hind : ∀ c ∈ indent, isWS c = true)
    (hlen : a.length = shape.prod) :
    ∃ f₂ p₂,
      processChars d (⟨List.replicate shape.prod 0, IndexIter.init shape⟩, [])
          (writeChardata d indent shape a ++ [d]) = ((f₂, p₂), none) ∧
      f₂.buf = a ∧ IterInv shape shape.prod f₂.cur := by
  by_cases hz : 0 ∈ shape
  · have hprod : shape.prod = 0 := List.prod_eq_zero hz
    have hnil : a = [] := List.eq_nil_of_length_eq_zero (by omega)
    have hnext : (IndexIter.init shape).next = none :=
      iterInv_next_none (by rw [hprod]; exact iterInv_init shape)
    rcases processChars_ws_delim (d := d)
        (f := (⟨List.replicate shape.prod 0, IndexIter.init shape⟩ : FillState))
        (p := []) (w := Char.ofNat 10 :: ([Char.ofNat 10] ++ indent))
        (fun x hx => absurd hx (List.not_mem_nil x))
        (by
          intro c hc
          rcases List.mem_cons.1 hc with h1 | h1
          · rw [h1]; rfl
          · rcases List.mem_append.1 h1 with h2 | h2
            · rcases List.mem_singleton.1 h2 with h3
              rw [h3]; rfl
            · exact hind c h2) with ⟨p₂, hrun, hp₂⟩
    refine ⟨⟨List.replicate shape.prod 0, IndexIter.init shape⟩, p₂, ?_, ?_, ?_⟩
    · rw [writeChardata, hnext]
      exact hrun
    · show List.replicate shape.prod 0 = a
      rw [hprod, hnil]
      rfl
    · rw [hprod]
      exact iterInv_init shape
  · have hpos : 0 < shape.prod :=
      Nat.pos_of_ne_zero fun h0 => hz (List.prod_eq_zero_iff.1 h0)
    rcases iterInv_next_lt (iterInv_init shape) hpos with ⟨it₀, hnext, hval₀, hv₀, hinv₁⟩
    rcases processChars_ws (d := d)
        (f := (⟨List.replicate shape.prod 0, IndexIter.init shape⟩ : FillState))
        (p := []) (w := Char.ofNat 10 :: (indent ++ ligolwIndent))
        (fun x hx => absurd hx (List.not_mem_nil x))
        (by
          intro c hc
          rcases List.mem_cons.1 hc with h1 | h1
          · rw [h1]; rfl
          · rcases List.mem_append.1 h1 with h2 | h2
            · exact hind c h2
            · exact ligolwIndent_ws c h2) with ⟨p₀, hrun, hp₀⟩
    rcases processWritten hdig hm hind hlen shape.prod 0 (IndexIter.init shape).index it₀
        ⟨List.replicate shape.prod 0, IndexIter.init shape⟩ p₀
        hval₀ hv₀ hinv₁ (iterInv_init shape)
        (by rw [List.take_zero, List.nil_append, Nat.sub_zero])
        hp₀ (by omega) with ⟨f₂, p₂, hmain, hbuf₂, hinvf, hp₂⟩
    refine ⟨f₂, p₂, ?_, hbuf₂, hinvf⟩
    rw [writeChardata, hnext]
    have hsplit : (Char.ofNat 10 ::
          ((indent ++ ligolwIndent ++
            writeLoop d indent shape a (IndexIter.init shape).index it₀ shape.prod) ++
            indent)) ++ [d] =
        (Char.ofNat 10 :: (indent ++ ligolwIndent)) ++
          (writeLoop d indent shape a (IndexIter.init shape).index it₀ shape.prod ++
            (indent ++ [d])) := by
      simp [List.append_assoc]
    rw [hsplit, processChars_seq hrun]
    exact hmain

/-- Feed a sequence of chunks with successive `appendData` calls,
stopping at the first error (the parse is aborted on an exception). -/
def feedChunks (shape : List Nat) (d : Char) (st : StreamState) :
    List (List Char) → StreamState × Option ParseError
  | [] => (st, none)
  | c :: cs =>
      match appendData shape d st c with
      | (st₂, none) => feedChunks shape d st₂ cs
      | (st₂, some e) => (st₂, some e)

/-- The concatenation of a list of chunks. -/
def joinChunks : List (List Char) → List Char
  | [] => []
  | c :: cs => c ++ joinChunks cs

theorem appendData_append (shape : List Nat) (d : Char) (st : StreamState)
    (a b : List Char) :
    appendData shape d st (a ++ b) =
      match appendData shape d st a with
      | (st₂, none) => appendData shape d st₂ b
      | (st₂, some e) => (st₂, some e) := by
  rw [appendData, processChars_append]
  rcases hr : processChars d
      (st.fill.getD ⟨List.replicate shape.prod 0, IndexIter.init shape⟩, st.pending) a with
    ⟨⟨f₂, p₂⟩, e⟩
  cases e with
  | none =>
      show (match processChars d (f₂, p₂) b with
        | ((f₃, p₃), e₃) => ((⟨some f₃, p₃⟩ : StreamState), e₃)) = _
      rw [appendData, hr]
      rfl
  | some e =>
      show ((⟨some f₂, p₂⟩ : StreamState), some e) = _
      rw [appendData, hr]

theorem feedChunks_eq_single (shape : List Nat) (d : Char) :
    ∀ (chunks : List (List Char)) (st : StreamState), chunks ≠ [] →
      feedChunks shape d st chunks = appendData shape d st (joinChunks chunks) := by
  intro chunks
  induction chunks with
  | nil => intro st h; exact absurd rfl h
  | cons c cs ih =>
      intro st _
      show (match appendData shape d st c with
        | (st₂, none) => feedChunks shape d st₂ cs
        | (st₂, some e) => (st₂, some e)) =
        appendData shape d st (c ++ joinChunks cs)
      by_cases hcs : cs = []
      · subst hcs
        rw [show joinChunks [] = [] from rfl, List.append_nil]
        rcases appendData shape d st c with ⟨st₂, _ | e⟩ <;> rfl
      · rw [appendData_append]
        rcases appendData shape d st c with ⟨st₂, _ | e⟩
        · exact ih st₂ hcs
        · rfl

/-! ## Shape resolution (`Array.get_shape` and `from_array`) -/

/-- A `Dim` child element; its pcdata holds the size as text. -/
structure Dim where
  pcdata : List Char
deriving Repr, DecidableEq

/-- `Array.get_shape`: `int(c.pcdata)` for each `Dim` child in
document order, reversed.  The cast (`int`) ignores surrounding
whitespace; a malformed size is a `ValueError` of the surrounding
parser, modelled as `none`. -/
def get_shape (dims : List Dim) : Option (List Nat) :=
  (dims.mapM fun c => castNat (stripWS c.pcdata)).map List.reverse

/-- The `Dim` children constructed by `from_array`: the in-memory
shape as a list, reversed, each element's `str` as the pcdata. -/
def dims_from_shape (shape : List Nat) : List Dim :=
  shape.reverse.map fun n => ⟨natToChars n⟩

theorem castNat_strip_natToChars (n : Nat) :
    castNat (stripWS (natToChars n)) = some n := by
  rw [stripWS_of_no_ws fun c hc => isDigitC_not_isWS (natToChars_all_digits c hc),
    castNat_natToChars]

theorem get_shape_dims_from_shape (shape : List Nat) :
    get_shape (dims_from_shape shape) = some shape := by
  rw [get_shape, dims_from_shape]
  have hmap : ∀ l : List Nat,
      ((l.map fun n => (⟨natToChars n⟩ : Dim)).mapM fun c => castNat (stripWS c.pcdata)) =
        some l := by
    intro l
    induction l with
    | nil => rfl
    | cons n t ih =>
        rw [List.map_cons, List.mapM_cons, castNat_strip_natToChars, ih]
        rfl
  rw [hmap shape.reverse]
  show some shape.reverse.reverse = some shape
  rw [List.reverse_reverse]

/-! ## Array construction (`Array.__init__`) and the type classifier -/

/-- The two storage families. -/
inductive StorageKind
  | integerKind
  | floatKind
deriving Repr, DecidableEq

/-- Modelled from the spec: the type classifier of the external
`types` module — `types.IntTypes` and `types.FloatTypes` are the sets
of recognized type names, mapping to the integer and float storage
families; any other name is unrecognized. -/
def classifyType (intTypes floatTypes : List (List Char)) (t : List Char) :
    Option StorageKind :=
  if t ∈ intTypes then some StorageKind.integerKind
  else if t ∈ floatTypes then some StorageKind.floatKind
  else none

/-- A constructed `Array` element: name, `Type` attribute, and the
storage family recorded by `__init__` (its `pytype`). -/
structure ArrayElem where
  name : List Char
  declaredType : List Char
  kind : StorageKind
deriving Repr, DecidableEq

/-- `Array.__init__`: looks the `Type` attribute up in the type
tables, recording the scalar family, and raises `TypeError` for an
unrecognized name; the `array` attribute starts absent. -/
def arrayInit (intTypes floatTypes : List (List Char)) (name t : List Char) :
    Except ParseError ArrayElem :=
  match classifyType intTypes floatTypes t with
  | some k => Except.ok ⟨name, t, k⟩
  | none => Except.error ParseError.unknownType

theorem storeTok_not_unknown (f : FillState) (tok : List Char) :
    (storeTok f tok).2 ≠ some ParseError.unknownType := by
  rw [storeTok]
  by_cases h1 : (stripWS tok).isEmpty
  · rw [if_pos h1]
    intro h
    exact Option.noConfusion h
  · rw [if_neg h1]
    rcases castInt (stripWS tok) with _ | v
    · intro h
      exact ParseError.noConfusion (Option.some.inj h)
    · rcases f.cur.next with _ | ⟨idx, cur₂⟩
      · intro h
        exact ParseError.noConfusion (Option.some.inj h)
      · intro h
        exact Option.noConfusion h

theorem stepChar_not_unknown (d : Char) (st : FillState × List Char) (c : Char) :
    (stepChar d st c).2 ≠ some ParseError.unknownType := by
  rw [stepChar]
  by_cases hc : c = d
  · rw [if_pos hc]
    have hs := storeTok_not_unknown st.1 st.2.reverse
    rcases hsv : storeTok st.1 st.2.reverse with ⟨f₂, _ | e⟩
    · intro h
      exact Option.noConfusion h
    · rw [hsv] at hs
      exact hs
  · rw [if_neg hc]
    intro h
    exact Option.noConfusion h

theorem processChars_not_unknown (d : Char) :
    ∀ (cs : List Char) (st : FillState × List Char),
      (processChars d st cs).2 ≠ some ParseError.unknownType := by
  intro cs
  induction cs with
  | nil =>
      intro st h
      exact Option.noConfusion h
  | cons c cs ih =>
      intro st
      rw [processChars_cons]
      have hs := stepChar_not_unknown d st c
      rcases hsv : stepChar d st c with ⟨st₂, _ | e⟩
      · exact ih st₂
      · rw [hsv] at hs
        exact hs

theorem appendData_not_unknown (shape : List Nat) (d : Char) (st : StreamState)
    (content : List Char) :
    (appendData shape d st content).2 ≠ some ParseError.unknownType := by
  rw [appendData]
  have hp := processChars_not_unknown d content
    (st.fill.getD ⟨List.replicate shape.prod 0, IndexIter.init shape⟩, st.pending)
  rcases hsv : processChars d
      (st.fill.getD ⟨List.replicate shape.prod 0, IndexIter.init shape⟩, st.pending)
      content with ⟨⟨f₂, p₂⟩, e⟩
  rw [hsv] at hp
  exact hp

/-! ## The array-name convention (`ArrayPattern`, `StripArrayName`,
`CompareArrayNames`)

The regular expression anchors the whole name: an optional nonempty
`[a-z0-9_]+` prefix followed by a colon, then the nonempty `Name`
group of `[a-z0-9_]` characters, then the literal `:array` at the
end.  Since neither the class `[a-z0-9_]` nor `array` contains a
colon, a name matches exactly when splitting it on colons yields two
or three segments of the required form, and the `Name` group is the
segment before `array`. -/

/-- The character class `[a-z0-9_]` of the naming convention. -/
def isNameChar (c : Char) : Bool :=
  (97 ≤ c.toNat && c.toNat ≤ 122) || (48 ≤ c.toNat && c.toNat ≤ 57) || c.toNat = 95

/-- The colon. -/
def colonChar : Char := Char.ofNat 58

/-- The literal `array` suffix. -/
def arrayWord : List Char :=
  [Char.ofNat 97, Char.ofNat 114, Char.ofNat 114, Char.ofNat 97, Char.ofNat 121]

/-- Split a name at every colon (the segments never contain one). -/
def splitColon : List Char → List (List Char)
  | [] => [[]]
  | c :: cs =>
      if c = colonChar then [] :: splitColon cs
      else
        match splitColon cs with
        | [] => [[c]]
        | t :: ts => (c :: t) :: ts

/-- `StripArrayName`: the `Name` group when the name matches the
naming convention, the name unchanged otherwise. -/
def StripArrayName (name : List Char) : List Char :=
  match splitColon name with
  | [n, a] =>
      if a = arrayWord ∧ n ≠ [] ∧ n.all isNameChar = true then n else name
  | [p, n, a] =>
      if a = arrayWord ∧ p ≠ [] ∧ p.all isNameChar = true ∧ n ≠ [] ∧
          n.all isNameChar = true then n
      else name
  | _ => name

/-- Lexicographic order on names, as Python `cmp` compares strings. -/
def listCharLt : List Char → List Char → Bool
  | [], [] => false
  | [], _ :: _ => true
  | _ :: _, [] => false
  | a :: as, b :: bs =>
      if a.toNat < b.toNat then true
      else if b.toNat < a.toNat then false
      else listCharLt as bs

/-- `CompareArrayNames`: Python `cmp` of the stripped names. -/
def CompareArrayNames (n1 n2 : List Char) : Int :=
  if StripArrayName n1 = StripArrayName n2 then 0
  else if listCharLt (StripArrayName n1) (StripArrayName n2) then -1 else 1

/-- The regular expression's language, stated as the spec words it:
an optional `prefix:` segment before a mandatory `name:array` form,
both segments nonempty strings over `[a-z0-9_]`. -/
def MatchesArrayConvention (name : List Char) : Prop :=
  (∃ n, n ≠ [] ∧ n.all isNameChar = true ∧ name = n ++ [colonChar] ++ arrayWord) ∨
  (∃ p n, p ≠ [] ∧ p.all isNameChar = true ∧ n ≠ [] ∧ n.all isNameChar = true ∧
    name = p ++ [colonChar] ++ n ++ [colonChar] ++ arrayWord)

theorem isNameChar_ne_colon {c : Char} (h : isNameChar c = true) : c ≠ colonChar := by
  intro he
  rw [he] at h
  exact absurd h (by decide)

theorem splitColon_no_colon {seg : List Char} (h : ∀ c ∈ seg, c ≠ colonChar) :
    splitColon seg = [seg] := by
  induction seg with
  | nil => rfl
  | cons c cs ih =>
      rw [splitColon, if_neg (h c (List.mem_cons_self _ _)),
        ih fun x hx => h x (List.mem_cons_of_mem _ hx)]

theorem splitColon_seg {seg rest : List Char} (h : ∀ c ∈ seg, c ≠ colonChar) :
    splitColon (seg ++ colonChar :: rest) = seg :: splitColon rest := by
  induction seg with
  | nil =>
      rw [List.nil_append, splitColon, if_pos rfl]
  | cons c cs ih =>
      rw [List.cons_append, splitColon, if_neg (h c (List.mem_cons_self _ _)),
        ih fun x hx => h x (List.mem_cons_of_mem _ hx)]

theorem arrayWord_no_colon : ∀ c ∈ arrayWord, c ≠ colonChar := by
  decide

/-- Joining the segments of a split reproduces the name. -/
def joinColon : List (List Char) → List Char
  | [] => []
  | [s] => s
  | s :: ss => s ++ colonChar :: joinColon ss

theorem splitColon_ne_nil : ∀ cs : List Char, splitColon cs ≠ [] := by
  intro cs
  cases cs with
  | nil => exact List.cons_ne_nil _ _
  | cons c cs =>
      rw [splitColon]
      by_cases hc : c = colonChar
      · rw [if_pos hc]; exact List.cons_ne_nil _ _
      · rw [if_neg hc]
        rcases splitColon cs with _ | ⟨t, ts⟩
        · exact List.cons_ne_nil _ _
        · exact List.cons_ne_nil _ _

theorem joinColon_splitColon : ∀ name : List Char, joinColon (splitColon name) = name := by
  intro name
  induction name with
  | nil => rfl
  | cons c cs ih =>
      rw [splitColon]
      by_cases hc : c = colonChar
      · rw [if_pos hc]
        rcases hs : splitColon cs with _ | ⟨t, ts⟩
        · exact absurd hs (splitColon_ne_nil cs)
        · rw [hs] at ih
          show [] ++ colonChar :: joinColon (t :: ts) = c :: cs
          rw [List.nil_append, ih, hc]
      · rw [if_neg hc]
        rcases hs : splitColon cs with _ | ⟨t, ts⟩
        · exact absurd hs (splitColon_ne_nil cs)
        · rw [hs] at ih
          cases ts with
          | nil =>
              show c :: t = c :: cs
              rw [show joinColon [t] = t from rfl] at ih
              rw [ih]
          | cons t₂ ts₂ =>
              show (c :: t) ++ colonChar :: joinColon (t₂ :: ts₂) = c :: cs
              rw [List.cons_append, ← ih]
              rfl

theorem all_ne_colon_of_nameChars {n : List Char} (h : n.all isNameChar = true) :
    ∀ c ∈ n, c ≠ colonChar :=
  fun c hc => isNameChar_ne_colon (List.all_eq_true.1 h c hc)

theorem stripArrayName_no_front {n : List Char} (hne : n ≠ [])
    (hall : n.all isNameChar = true) :
    StripArrayName (n ++ [colonChar] ++ arrayWord) = n := by
  have hre : n ++ [colonChar] ++ arrayWord = n ++ colonChar :: arrayWord := by
    simp
  rw [hre, StripArrayName, splitColon_seg (all_ne_colon_of_nameChars hall),
    splitColon_no_colon arrayWord_no_colon]
  show (if arrayWord = arrayWord ∧ n ≠ [] ∧ n.all isNameChar = true then n
    else n ++ colonChar :: arrayWord) = n
  rw [if_pos ⟨rfl, hne, hall⟩]

theorem stripArrayName_with_front {p n : List Char} (hpne : p ≠ [])
    (hpall : p.all isNameChar = true) (hne : n ≠ [])
    (hall : n.all isNameChar = true) :
    StripArrayName (p ++ [colonChar] ++ n ++ [colonChar] ++ arrayWord) = n := by
  have hre : p ++ [colonChar] ++ n ++ [colonChar] ++ arrayWord =
      p ++ colonChar :: (n ++ colonChar :: arrayWord) := by
    simp
  rw [hre, StripArrayName, splitColon_seg (all_ne_colon_of_nameChars hpall),
    splitColon_seg (all_ne_colon_of_nameChars hall),
    splitColon_no_colon arrayWord_no_colon]
  show (if arrayWord = arrayWord ∧ p ≠ [] ∧ p.all isNameChar = true ∧ n ≠ [] ∧
      n.all isNameChar = true then n
    else p ++ colonChar :: (n ++ colonChar :: arrayWord)) = n
  rw [if_pos ⟨rfl, hpne, hpall, hne, hall⟩]

theorem stripArrayName_eq_self_of_not_matches {name : List Char}
    (h : ¬MatchesArrayConvention name) : StripArrayName name = name := by
  by_contra hne
  apply h
  rw [StripArrayName] at hne
  have hj := joinColon_splitColon name
  rcases hsp : splitColon name with _ | ⟨s1, _ | ⟨s2, _ | ⟨s3, rest⟩⟩⟩
  · rw [hsp] at hne
    exact absurd rfl hne
  · rw [hsp] at hne
    exact absurd rfl hne
  · rw [hsp] at hne hj
    by_cases hcond : s2 = arrayWord ∧ s1 ≠ [] ∧ s1.all isNameChar = true
    · left
      refine ⟨s1, hcond.2.1, hcond.2.2, ?_⟩
      rw [← hj]
      show s1 ++ colonChar :: s2 = s1 ++ [colonChar] ++ arrayWord
      rw [hcond.1]
      simp
    · exact absurd (if_neg hcond) hne
  · rcases rest with _ | ⟨s4, rest₂⟩
    · rw [hsp] at hne hj
      by_cases hcond : s3 = arrayWord ∧ s1 ≠ [] ∧ s1.all isNameChar = true ∧
          s2 ≠ [] ∧ s2.all isNameChar = true
      · right
        refine ⟨s1, s2, hcond.2.1, hcond.2.2.1, hcond.2.2.2.1, hcond.2.2.2.2, ?_⟩
        rw [← hj]
        show s1 ++ colonChar :: (s2 ++ colonChar :: s3) =
          s1 ++ [colonChar] ++ s2 ++ [colonChar] ++ arrayWord
        rw [hcond.1]
        simp
      · exact absurd (if_neg hcond) hne
    · rw [hsp] at hne
      exact absurd rfl hne

theorem compareArrayNames_eq_zero_iff (n1 n2 : List Char) :
    CompareArrayNames n1 n2 = 0 ↔ StripArrayName n1 = StripArrayName n2 := by
  rw [CompareArrayNames]
  by_cases he : StripArrayName n1 = StripArrayName n2
  · rw [if_pos he]
    exact ⟨fun _ => he, fun _ => rfl⟩
  · rw [if_neg he]
    constructor
    · intro h0
      by_cases hlt : listCharLt (StripArrayName n1) (StripArrayName n2)
      · rw [if_pos hlt] at h0
        exact absurd h0 (by decide)
      · rw [if_neg hlt] at h0
        exact absurd h0 (by decide)
    · intro heq
      exact absurd heq he

/-! ## Closed form of the write formatting -/

/-- The formatting the spec prescribes for the element text: the
values in sequencer order separated by the delimiter with no
delimiter after the final element, and the break text inserted before
value `j` (never before the first) exactly when `j` is a multiple of
the fastest dimension's size, i.e. when the fastest dimension is
about to restart at 0. -/
def specValuesText (d : Char) (brk : List Char) (s0 : Nat) : Nat → List Int → List Char
  | _, [] => []
  | _, [v] => intToChars v
  | j, v :: vs =>
      intToChars v ++ [d] ++ (if (j + 1) % s0 = 0 then brk else []) ++
        specValuesText d brk s0 (j + 1) vs

theorem specValuesText_cons_ne {d : Char} {brk : List Char} {s0 j : Nat} {v : Int}
    {vs : List Int} (h : vs ≠ []) :
    specValuesText d brk s0 j (v :: vs) =
      intToChars v ++ [d] ++ (if (j + 1) % s0 = 0 then brk else []) ++
        specValuesText d brk s0 (j + 1) vs := by
  rcases vs with _ | ⟨w, rest⟩
  · exact absurd rfl h
  · rfl

theorem headD_valid {i : List Nat} {s0 : Nat} {ss : List Nat}
    (h : ValidIx i (s0 :: ss)) : i.headD 1 = valOf i (s0 :: ss) % s0 := by
  cases h with
  | cons hab htail =>
      rename_i a t
      show a = (a + s0 * valOf t ss) % s0
      rw [Nat.add_mul_mod_self_left, Nat.mod_eq_of_lt hab]

/-- The write loop emits exactly the spec's formatting followed by
the final line break. -/
theorem writeLoop_closed {d : Char} {indent : List Char} {s0 : Nat} {ss : List Nat}
    {a : List Int} (hlen : a.length = (s0 :: ss).prod) :
    ∀ (fuel j : Nat) (cur : List Nat) (it : IndexIter),
      ValidIx cur (s0 :: ss) → valOf cur (s0 :: ss) = j →
      IterInv (s0 :: ss) (j + 1) it →
      (s0 :: ss).prod - j ≤ fuel →
      writeLoop d indent (s0 :: ss) a cur it fuel =
        specValuesText d (Char.ofNat 10 :: (indent ++ ligolwIndent)) s0 j (a.drop j) ++
          [Char.ofNat 10] := by
  intro fuel
  induction fuel with
  | zero =>
      intro j cur it hval hvj hit hfuel
      exfalso
      have := valOf_lt_prod hval
      omega
  | succ fuel ih =>
      intro j cur it hval hvj hit hfuel
      have hj : j < (s0 :: ss).prod := by
        have := valOf_lt_prod hval
        omega
      have hja : j < a.length := by omega
      have hdrop : a.drop j = a.getD j 0 :: a.drop (j + 1) := by
        rw [List.drop_eq_getElem_cons hja, List.getD_eq_getElem a 0 hja]
      rw [writeLoop, hvj, hdrop]
      by_cases hj1 : j + 1 < (s0 :: ss).prod
      · rcases iterInv_next_lt hit hj1 with ⟨it₂, hnext, hval₂, hv₂, hinv₂⟩
        rw [hnext]
        have hne : a.drop (j + 1) ≠ [] := by
          intro h0
          rw [List.drop_eq_nil_iff] at h0
          omega
        show intToChars (a.getD j 0) ++
            (([d] ++ if it.index.headD 1 = 0 then Char.ofNat 10 :: (indent ++ ligolwIndent)
              else []) ++ writeLoop d indent (s0 :: ss) a it.index it₂ fuel) = _
        rw [specValuesText_cons_ne hne, headD_valid hval₂, hv₂,
          ih (j + 1) it.index it₂ hval₂ hv₂ hinv₂ (by omega)]
        simp [List.append_assoc]
      · have hke : j + 1 = (s0 :: ss).prod := by
          rcases hit with ⟨_, ⟨he, _⟩ | ⟨hlt2, _⟩⟩
          · exact he
          · omega
        rw [iterInv_next_none (hke ▸ hit)]
        have hdrop1 : a.drop (j + 1) = [] := by
          rw [List.drop_eq_nil_iff]
          omega
        rw [hdrop1]
        rfl

/-! ## `appendData` on caller-supplied token texts -/

theorem appendData_tokens_ok {shape : List Nat} {d : Char}
    (hdig : isDigitC d = false) (hm : d ≠ Char.ofNat 45) (vals : List Int)
    (hle : vals.length ≤ shape.prod) :
    ∃ cur₂, appendData shape d freshStream (tokensText d vals) =
      (⟨some ⟨vals ++ List.replicate (shape.prod - vals.length) 0, cur₂⟩, []⟩, none) ∧
      IterInv shape vals.length cur₂ := by
  rcases processTokens_ok hdig hm vals []
      ⟨List.replicate shape.prod 0, IndexIter.init shape⟩
      (iterInv_init shape)
      (by simp)
      (by simpa using hle)
    with ⟨cur₂, hrun, hinv⟩
  simp only [List.nil_append, List.length_nil, Nat.sub_zero, Nat.zero_add] at hrun hinv
  refine ⟨cur₂, ?_, hinv⟩
  rw [appendData]
  show (match processChars d (⟨List.replicate shape.prod 0, IndexIter.init shape⟩, [])
      (tokensText d vals) with
    | ((f₂, p₂), e) => ((⟨some f₂, p₂⟩ : StreamState), e)) = _
  rw [hrun]

theorem appendData_tokens_over {shape : List Nat} {d : Char}
    (hdig : isDigitC d = false) (hm : d ≠ Char.ofNat 45) (vals : List Int)
    (hgt : shape.prod < vals.length) :
    ∃ f₂ p₂, appendData shape d freshStream (tokensText d vals) =
      (⟨some f₂, p₂⟩, some ParseError.overflow) ∧
      f₂.buf = vals.take shape.prod ∧ f₂.buf.length = shape.prod := by
  rcases processTokens_over hdig hm vals []
      ⟨List.replicate shape.prod 0, IndexIter.init shape⟩
      (iterInv_init shape)
      (by simp)
      (by simpa using hgt)
    with ⟨f₂, p₂, hrun, hbuf, hblen⟩
  simp only [List.nil_append, List.length_nil, Nat.sub_zero] at hrun hbuf
  refine ⟨f₂, p₂, ?_, hbuf, hblen⟩
  rw [appendData]
  show (match processChars d (⟨List.replicate shape.prod 0, IndexIter.init shape⟩, [])
      (tokensText d vals) with
    | ((f₂, p₂), e) => ((⟨some f₂, p₂⟩ : StreamState), e)) = _
  rw [hrun]

/-! ## The claims -/

/-- Round trip of the codec for the integer scalar family: writing an
array via `ArrayStream.write` and parsing the emitted character data
back via `appendData` — with the caller-supplied final delimiter
flushing the last token — reproduces exactly the same buffer
contents, and resolving the shape of the written dimension children
yields the same shape.  This covers single-dimension,
size-1-dimension and size-0-dimension shapes; the indentation must be
whitespace and the delimiter must not be a character that can occur
inside a serialized value.  The float scalar family is not modelled
in this development: its serialization is floating-point runtime
behaviour (a Python 2 `"%s"` rendering keeps only twelve significant
digits of a double before the `float()` cast reads them back), which
has no exact counterpart in this embedding, so the corresponding law
for float buffers is neither asserted nor refuted here. -/
theorem write_parse_round_trip (shape : List Nat) (a : List Int) (d : Char)
    (indent : List Char) (hlen : a.length = shape.prod)
    (hdig : isDigitC d = false) (hm : d ≠ Char.ofNat 45)
    (hind : ∀ c ∈ indent, isWS c = true) :
    ∃ f₂ p₂,
      feedChunks shape d freshStream [writeChardata d indent shape a, [d]] =
        (⟨some f₂, p₂⟩, none) ∧
      f₂.buf = a ∧ f₂.cur.shape = shape ∧
      get_shape (dims_from_shape shape) = some shape := by
  rcases parseWriteChardata (a := a) hdig hm hind hlen with ⟨f₂, p₂, hrun, hbuf, hinv⟩
  refine ⟨f₂, p₂, ?_, hbuf, hinv.1, get_shape_dims_from_shape shape⟩
  rw [feedChunks_eq_single shape d _ freshStream (by simp)]
  show appendData shape d freshStream (writeChardata d indent shape a ++ ([d] ++ [])) = _
  rw [List.append_nil, appendData]
  show (match processChars d (⟨List.replicate shape.prod 0, IndexIter.init shape⟩, [])
      (writeChardata d indent shape a ++ [d]) with
    | ((f₃, p₃), e) => ((⟨some f₃, p₃⟩ : StreamState), e)) = _
  rw [hrun]

theorem write_parse_round_trip_witness :
    ([1, 4, 2, 5, 3, 6] : List Int).length = ([2, 3] : List Nat).prod ∧
    isDigitC ',' = false ∧
    (∃ f₂ p₂, feedChunks [2, 3] ',' freshStream
        [writeChardata ',' [] [2, 3] [1, 4, 2, 5, 3, 6], [',']] =
        (⟨some f₂, p₂⟩, none) ∧ f₂.buf = [1, 4, 2, 5, 3, 6] ∧ f₂.cur.shape = [2, 3] ∧
        get_shape (dims_from_shape [2, 3]) = some [2, 3]) :=
  ⟨by decide, by decide,
    write_parse_round_trip [2, 3] [1, 4, 2, 5, 3, 6] ',' [] (by decide) (by decide)
      (by decide) (by decide)⟩

/-- Claim C2: for every shape the index sequencer yields all valid
multi-indices in odometer order with position 0 fastest-varying (the
`j`-th yielded index has odometer value `j`), starting at the
all-zero index; the number of yielded indices is the product of the
sizes (yielding stops there even with fuel to spare); a zero-size
dimension makes the very first `next` raise `StopIteration`; and
shape `(2,3)` yields exactly the six listed indices, then is
exhausted. -/
theorem sequencer_order_and_length (shape : List Nat) :
    (iterTake (IndexIter.init shape) (shape.prod + 1)).length = shape.prod ∧
    (∀ (j : Nat) (i : List Nat),
      (iterTake (IndexIter.init shape) (shape.prod + 1))[j]? = some i →
      ValidIx i shape ∧ valOf i shape = j) ∧
    (∀ i : List Nat, ValidIx i shape →
      i ∈ iterTake (IndexIter.init shape) (shape.prod + 1)) ∧
    (0 ∈ shape → (IndexIter.init shape).next = none) ∧
    (0 ∉ shape →
      (iterTake (IndexIter.init shape) (shape.prod + 1))[0]? =
        some (List.replicate shape.length 0)) ∧
    iterTake (IndexIter.init [2, 3]) 7 =
      [[0, 0], [1, 0], [0, 1], [1, 1], [0, 2], [1, 2]] := by
  rcases @iterTake_spec shape 0 (IndexIter.init shape) (iterInv_init shape)
      (shape.prod + 1) (by omega) with
    ⟨hlen, helem⟩
  refine ⟨by simpa using hlen, fun j i h => by simpa using helem j i h,
    fun i hv => iterTake_complete hv (by omega), ?_, ?_, by decide⟩
  · intro hz
    exact iterInv_next_none (by
      rw [List.prod_eq_zero hz]
      exact iterInv_init shape)
  · intro hz
    have hpos : 0 < shape.prod :=
      Nat.pos_of_ne_zero fun h0 => hz (List.prod_eq_zero_iff.1 h0)
    rcases iterInv_next_lt (iterInv_init shape) hpos with ⟨it₂, hnext, _, _, _⟩
    rw [iterTake, hnext]
    show ((IndexIter.init shape).index :: iterTake it₂ shape.prod)[0]? = _
    rw [List.getElem?_cons_zero]
    rfl

theorem sequencer_order_and_length_witness :
    (ValidIx [1, 1] [2, 3] ∧ valOf [1, 1] [2, 3] = 3) ∧
    [0, 2] ∈ iterTake (IndexIter.init [2, 3]) 7 ∧
    (IndexIter.init [0, 2]).next = none ∧
    (iterTake (IndexIter.init [2, 3]) 7)[0]? = some (List.replicate 2 0) :=
  ⟨(sequencer_order_and_length [2, 3]).2.1 3 [1, 1] (by decide),
    (sequencer_order_and_length [2, 3]).2.2.1 [0, 2]
      (List.Forall₂.cons (by decide) (List.Forall₂.cons (by decide) List.Forall₂.nil)),
    (sequencer_order_and_length [0, 2]).2.2.2.1 (by decide),
    (sequencer_order_and_length [2, 3]).2.2.2.2.1 (by decide)⟩

/-- Claim C3: resolving a shape from a dimension list (`get_shape`)
is the full reversal of the parsed `Dim` sizes in declaration order;
deriving the dimension children from an in-memory shape
(`from_array`) is the same reversal in the other direction; and
resolving the dimensions derived from a resolved shape gives that
shape back, so
`resolve_shape(dimensions_from_shape(resolve_shape(D))) =
resolve_shape(D)` for every dimension list `D`. -/
theorem shape_dimension_duality :
    (∀ (dims : List Dim) (ns : List Nat),
      (dims.mapM fun c => castNat (stripWS c.pcdata)) = some ns →
      get_shape dims = some ns.reverse) ∧
    (∀ shape : List Nat,
      (dims_from_shape shape).map Dim.pcdata = (shape.map natToChars).reverse) ∧
    (∀ shape : List Nat, get_shape (dims_from_shape shape) = some shape) ∧
    (∀ (dims : List Dim) (s : List Nat),
      get_shape dims = some s → get_shape (dims_from_shape s) = some s) := by
  refine ⟨?_, ?_, get_shape_dims_from_shape, ?_⟩
  · intro dims ns h
    rw [get_shape, h]
    rfl
  · intro shape
    rw [dims_from_shape, List.map_map, List.map_reverse]
    rfl
  · intro dims s _
    exact get_shape_dims_from_shape s

theorem shape_dimension_duality_witness :
    get_shape [⟨['3']⟩, ⟨['2']⟩] = some [2, 3] ∧
    get_shape (dims_from_shape [2, 3]) = some [2, 3] :=
  ⟨shape_dimension_duality.1 [⟨['3']⟩, ⟨['2']⟩] [3, 2] (by decide),
    shape_dimension_duality.2.2.2 [⟨['3']⟩, ⟨['2']⟩] [2, 3] (by decide)⟩

/-- Claim C4: during `appendData` each typed token is stored at the
next index from the sequencer cursor — supplying at most
`shape.prod` values places them in sequencer order, value `j` at the
flat position of odometer value `j` — and a token arriving when the
cursor is exhausted fails the parse with the "too many values in
Array" overflow error.  In particular on shape `(2,2)`: five values
fail with the overflow error while exactly four succeed with the
buffer holding them in sequencer-order placement. -/
theorem overflow_on_too_many_values :
    (∀ (shape : List Nat) (d : Char) (vals : List Int),
      isDigitC d = false → d ≠ Char.ofNat 45 → shape.prod < vals.length →
      ∃ f₂ p₂, appendData shape d freshStream (tokensText d vals) =
        (⟨some f₂, p₂⟩, some ParseError.overflow)) ∧
    (∀ (shape : List Nat) (d : Char) (vals : List Int),
      isDigitC d = false → d ≠ Char.ofNat 45 → vals.length ≤ shape.prod →
      ∃ cur₂, appendData shape d freshStream (tokensText d vals) =
        (⟨some ⟨vals ++ List.replicate (shape.prod - vals.length) 0, cur₂⟩, []⟩, none)) ∧
    (appendData [2, 2] ',' freshStream "1,2,3,4,5,".data).2 = some ParseError.overflow ∧
    appendData [2, 2] ',' freshStream "1,2,3,4,".data =
      (⟨some ⟨[1, 2, 3, 4], ⟨[2, 2], [0, 0], true⟩⟩, []⟩, none) := by
  refine ⟨?_, ?_, by decide, by decide⟩
  · intro shape d vals hdig hm hgt
    rcases appendData_tokens_over hdig hm vals hgt with ⟨f₂, p₂, hrun, _, _⟩
    exact ⟨f₂, p₂, hrun⟩
  · intro shape d vals hdig hm hle
    rcases appendData_tokens_ok hdig hm vals hle with ⟨cur₂, hrun, _⟩
    exact ⟨cur₂, hrun⟩

theorem overflow_on_too_many_values_witness :
    (∃ f₂ p₂, appendData [2, 2] ',' freshStream (tokensText ',' [1, 2, 3, 4, 5]) =
      (⟨some f₂, p₂⟩, some ParseError.overflow)) ∧
    (∃ cur₂, appendData [2, 2] ',' freshStream (tokensText ',' [1, 2, 3, 4]) =
      (⟨some ⟨[1, 2, 3, 4] ++ List.replicate (([2, 2] : List Nat).prod - 4) 0, cur₂⟩, []⟩,
        none)) :=
  ⟨overflow_on_too_many_values.1 [2, 2] ',' [1, 2, 3, 4, 5] (by decide) (by decide)
      (by decide),
    overflow_on_too_many_values.2.1 [2, 2] ',' [1, 2, 3, 4] (by decide) (by decide)
      (by decide)⟩

/-- Claim C5: supplying fewer tokens than the shape's capacity is not
an error: the parse succeeds and every position not assigned a token
still holds the zero value the buffer was filled with when the first
`appendData` call allocated it.  The first call — even with empty
content — allocates the zero-filled buffer of `shape.prod` elements
and a fresh cursor.  In particular shape `(2,2)` with two values
succeeds and the remaining two positions hold zero. -/
theorem underfill_is_not_an_error :
    (∀ (shape : List Nat) (d : Char) (vals : List Int),
      isDigitC d = false → d ≠ Char.ofNat 45 → vals.length ≤ shape.prod →
      ∃ cur₂, appendData shape d freshStream (tokensText d vals) =
        (⟨some ⟨vals ++ List.replicate (shape.prod - vals.length) 0, cur₂⟩, []⟩, none)) ∧
    (∀ (shape : List Nat) (d : Char),
      appendData shape d freshStream [] =
        (⟨some ⟨List.replicate shape.prod 0, IndexIter.init shape⟩, []⟩, none)) ∧
    appendData [2, 2] ',' freshStream "1,2,".data =
      (⟨some ⟨[1, 2, 0, 0], ⟨[2, 2], [0, 1], false⟩⟩, []⟩, none) := by
  refine ⟨?_, fun shape d => rfl, by decide⟩
  intro shape d vals hdig hm hle
  rcases appendData_tokens_ok hdig hm vals hle with ⟨cur₂, hrun, _⟩
  exact ⟨cur₂, hrun⟩

theorem underfill_is_not_an_error_witness :
    ∃ cur₂, appendData [2, 2] ',' freshStream (tokensText ',' [1, 2]) =
      (⟨some ⟨[1, 2] ++ List.replicate (([2, 2] : List Nat).prod - 2) 0, cur₂⟩, []⟩, none) :=
  underfill_is_not_an_error.1 [2, 2] ',' [1, 2] (by decide) (by decide) (by decide)

/-- Claim C6: `ArrayStream.write` emits the scalars in sequencer
order separated by the declared delimiter, with no delimiter after
the final element; the line break plus indentation is inserted
exactly when the fastest dimension is about to restart at 0 — before
value `j` exactly when `j` is a positive multiple of the fastest
size, never before the first element; an array with a zero-size
dimension emits no elements and a single line break; and the `(2,3)`
example with delimiter `,` produces exactly the documented text. -/
theorem write_formatting :
    (∀ (d : Char) (indent : List Char) (s0 : Nat) (ss : List Nat) (a : List Int),
      a.length = (s0 :: ss).prod → 0 ∉ (s0 :: ss) →
      writeChardata d indent (s0 :: ss) a =
        Char.ofNat 10 ::
          ((indent ++ ligolwIndent ++
            (specValuesText d (Char.ofNat 10 :: (indent ++ ligolwIndent)) s0 0 a ++
              [Char.ofNat 10])) ++ indent)) ∧
    (∀ (d : Char) (indent : List Char) (shape : List Nat) (a : List Int), 0 ∈ shape →
      writeChardata d indent shape a = Char.ofNat 10 :: ([Char.ofNat 10] ++ indent)) ∧
    writeChardata ',' [] [2, 3] [1, 4, 2, 5, 3, 6] = "\n\t1,4,\n\t2,5,\n\t3,6\n".data := by
  refine ⟨?_, ?_, by decide⟩
  · intro d indent s0 ss a hlen hz
    have hpos : 0 < (s0 :: ss).prod :=
      Nat.pos_of_ne_zero fun h0 => hz (List.prod_eq_zero_iff.1 h0)
    rcases iterInv_next_lt (iterInv_init (s0 :: ss)) hpos with
      ⟨it₀, hnext, hval₀, hv₀, hinv₁⟩
    rw [writeChardata, hnext]
    show Char.ofNat 10 ::
        ((indent ++ ligolwIndent ++
          writeLoop d indent (s0 :: ss) a (IndexIter.init (s0 :: ss)).index it₀
            (s0 :: ss).prod) ++ indent) = _
    rw [writeLoop_closed hlen (s0 :: ss).prod 0 (IndexIter.init (s0 :: ss)).index it₀
      hval₀ hv₀ hinv₁ (by omega), List.drop_zero]
  · intro d indent shape a hz
    rw [writeChardata,
      iterInv_next_none (by
        rw [List.prod_eq_zero hz]
        exact iterInv_init shape)]

theorem write_formatting_witness :
    writeChardata ',' [] [2, 3] [1, 4, 2, 5, 3, 6] =
      Char.ofNat 10 ::
        (([] ++ ligolwIndent ++
          (specValuesText ',' (Char.ofNat 10 :: ([] ++ ligolwIndent)) 2 0
            [1, 4, 2, 5, 3, 6] ++ [Char.ofNat 10])) ++ []) ∧
    writeChardata ',' [] [0, 3] [] = Char.ofNat 10 :: ([Char.ofNat 10] ++ []) :=
  ⟨write_formatting.1 ',' [] 2 [3] [1, 4, 2, 5, 3, 6] (by decide) (by decide),
    write_formatting.2.1 ',' [] [0, 3] [] (by decide)⟩

/-- Claim C7: feeding any list of chunks to `appendData` one call at
a time — including splits in the middle of a token — produces exactly
the same stream state and error as feeding the whole concatenated
text in a single `appendData` call, for any starting state; with the
same final flush delimiter appended as a chunk of its own, the final
buffers therefore coincide. -/
theorem chunk_robustness (shape : List Nat) (d : Char) :
    ∀ (chunks : List (List Char)) (st : StreamState), chunks ≠ [] →
      feedChunks shape d st chunks = appendData shape d st (joinChunks chunks) :=
  feedChunks_eq_single shape d

theorem chunk_robustness_witness :
    feedChunks [2, 2] ',' freshStream ["1,2".data, ",3".data, ",".data] =
      appendData [2, 2] ',' freshStream (joinChunks ["1,2".data, ",3".data, ",".data]) :=
  chunk_robustness [2, 2] ',' ["1,2".data, ",3".data, ",".data] freshStream (by decide)

/-- Claim C8: constructing an `Array` node with a `Type` attribute
that the type classifier does not recognize fails with the unknown-
type error at construction time; with a recognized `Type` the
construction succeeds and records the storage family the classifier
assigns; and `appendData` can never fail with the unknown-type error
afterwards, whatever the state or content. -/
theorem eager_type_check :
    (∀ (intTypes floatTypes : List (List Char)) (nm t : List Char),
      arrayInit intTypes floatTypes nm t = Except.error ParseError.unknownType ↔
      classifyType intTypes floatTypes t = none) ∧
    (∀ (intTypes floatTypes : List (List Char)) (nm t : List Char) (arr : ArrayElem),
      arrayInit intTypes floatTypes nm t = Except.ok arr →
      classifyType intTypes floatTypes t = some arr.kind ∧
      arr.declaredType = t ∧ arr.name = nm) ∧
    (∀ (shape : List Nat) (d : Char) (st : StreamState) (content : List Char),
      (appendData shape d st content).2 ≠ some ParseError.unknownType) := by
  refine ⟨?_, ?_, appendData_not_unknown⟩
  · intro its fts nm t
    rw [arrayInit]
    rcases hc : classifyType its fts t with _ | k
    · exact ⟨fun _ => rfl, fun _ => rfl⟩
    · constructor
      · intro h
        exact Except.noConfusion h
      · intro h
        exact Option.noConfusion h
  · intro its fts nm t arr h
    rw [arrayInit] at h
    rcases hc : classifyType its fts t with _ | k
    · rw [hc] at h
      exact Except.noConfusion h
    · rw [hc] at h
      have harr : (⟨nm, t, k⟩ : ArrayElem) = arr := Except.ok.inj h
      rw [← harr]
      exact ⟨rfl, rfl, rfl⟩

theorem eager_type_check_witness :
    (arrayInit ["int_4s".data] ["real_8".data] "a:array".data "blah".data =
        Except.error ParseError.unknownType) ∧
    (classifyType ["int_4s".data] ["real_8".data] "int_4s".data =
        some (ArrayElem.mk "a:array".data "int_4s".data StorageKind.integerKind).kind ∧
      (ArrayElem.mk "a:array".data "int_4s".data StorageKind.integerKind).declaredType =
        "int_4s".data ∧
      (ArrayElem.mk "a:array".data "int_4s".data StorageKind.integerKind).name =
        "a:array".data) ∧
    (appendData [2, 2] ',' freshStream "1,2,".data).2 ≠ some ParseError.unknownType :=
  ⟨(eager_type_check.1 ["int_4s".data] ["real_8".data] "a:array".data "blah".data).2
      (by decide),
    eager_type_check.2.1 ["int_4s".data] ["real_8".data] "a:array".data "int_4s".data
      ⟨"a:array".data, "int_4s".data, StorageKind.integerKind⟩ (by rfl),
    eager_type_check.2.2 [2, 2] ',' freshStream "1,2,".data⟩

/-- Claim C9: `StripArrayName` removes an optional `prefix:` segment
and the mandatory trailing `:array` suffix whenever the name matches
the naming convention — both segments nonempty strings over
`[a-z0-9_]` — and returns the name entirely unchanged when it does
not match; `CompareArrayNames` reports two names equal exactly when
their stripped forms are equal. -/
theorem name_convention :
    (∀ n : List Char, n ≠ [] → n.all isNameChar = true →
      StripArrayName (n ++ [colonChar] ++ arrayWord) = n) ∧
    (∀ p n : List Char, p ≠ [] → p.all isNameChar = true →
      n ≠ [] → n.all isNameChar = true →
      StripArrayName (p ++ [colonChar] ++ n ++ [colonChar] ++ arrayWord) = n) ∧
    (∀ name : List Char, ¬MatchesArrayConvention name → StripArrayName name = name) ∧
    (∀ n1 n2 : List Char,
      CompareArrayNames n1 n2 = 0 ↔ StripArrayName n1 = StripArrayName n2) := by
  exact ⟨fun n h1 h2 => stripArrayName_no_front h1 h2,
    fun p n h1 h2 h3 h4 => stripArrayName_with_front h1 h2 h3 h4,
    fun name h => stripArrayName_eq_self_of_not_matches h,
    compareArrayNames_eq_zero_iff⟩

theorem name_convention_witness :
    StripArrayName ("psd".data ++ [colonChar] ++ arrayWord) = "psd".data ∧
    StripArrayName ("h1".data ++ [colonChar] ++ "psd".data ++ [colonChar] ++ arrayWord) =
      "psd".data ∧
    StripArrayName [] = [] ∧
    StripArrayName "psd:array".data = StripArrayName "h1:psd:array".data :=
  ⟨name_convention.1 "psd".data (by decide) (by decide),
    name_convention.2.1 "h1".data "psd".data (by decide) (by decide) (by decide) (by decide),
    name_convention.2.2.1 []
      (by
        rintro (⟨n, hne, _, heq⟩ | ⟨p, n, _, _, _, _, heq⟩) <;> simp at heq),
    (name_convention.2.2.2 "psd:array".data "h1:psd:array".data).1 (by decide)⟩

/-- Claim C10: when `appendData` fails with the "too many values"
overflow error, every token consumed before the failing one has
already been stored in the buffer at its sequencer position — the
buffer holds the first `shape.prod` supplied values — and the error
neither resets nor deallocates it: the node retains the fully filled
buffer of size `shape.prod`.  The concrete `(2,2)` overflow leaves
the four stored values in place. -/
theorem overflow_retains_filled_buffer :
    (∀ (shape : List Nat) (d : Char) (vals : List Int),
      isDigitC d = false → d ≠ Char.ofNat 45 → shape.prod < vals.length →
      ∃ f₂ p₂, appendData shape d freshStream (tokensText d vals) =
        (⟨some f₂, p₂⟩, some ParseError.overflow) ∧
        f₂.buf = vals.take shape.prod ∧ f₂.buf.length = shape.prod) ∧
    appendData [2, 2] ',' freshStream "1,2,3,4,5,".data =
      (⟨some ⟨[1, 2, 3, 4], ⟨[2, 2], [0, 0], true⟩⟩, ['5']⟩,
        some ParseError.overflow) := by
  refine ⟨?_, by decide⟩
  intro shape d vals hdig hm hgt
  exact appendData_tokens_over hdig hm vals hgt

theorem overflow_retains_filled_buffer_witness :
    ∃ f₂ p₂, appendData [2, 2] ',' freshStream (tokensText ',' [1, 2, 3, 4, 5]) =
      (⟨some f₂, p₂⟩, some ParseError.overflow) ∧
      f₂.buf = ([1, 2, 3, 4, 5] : List Int).take (([2, 2] : List Nat).prod) ∧
      f₂.buf.length = ([2, 2] : List Nat).prod :=
  overflow_retains_filled_buffer.1 [2, 2] ',' [1, 2, 3, 4, 5] (by decide) (by decide)
    (by decide)

end GlueArray
